import Mathlib

/-!
# Verification of the tonutils wallet-connection core

This file gives a shallow embedding of `tonutils/tonconnect/models/wallet.py`
(the `WalletApp` and `WalletInfo` classes) and proves properties of the
embedded code.

Conventions of the embedding:
* Python `bytes`/`bytearray` values are `List Nat` (each entry one byte).
* Python `int` is `Int` (unbounded); `int.to_bytes(n, "little")` is modelled
  with its `OverflowError` behaviour made explicit in an `Except` result.
* Python exceptions are modelled by the `PyErr` error type of `Except`;
  a `try/except` block is a `match` on the `Except` value.
* The SHA-256 primitive and the Ed25519 verification primitive of the `nacl`
  library are external, stateless library calls; they are modelled by an
  abstract `Crypto` structure so that every theorem holds for an arbitrary
  implementation of the two primitives.
* Python strings are Lean `String`s; `str.encode()` is UTF-8 encoding to
  a byte list.
-/

namespace Tonutils

/-- UTF-8 encoding of a single character (standard 1–4 byte encoding),
byte values as `Nat`. -/
def utf8Char (c : Char) : List Nat :=
  let n := c.toNat
  if n < 0x80 then [n]
  else if n < 0x800 then [0xC0 + n / 64, 0x80 + n % 64]
  else if n < 0x10000 then [0xE0 + n / 4096, 0x80 + n / 64 % 64, 0x80 + n % 64]
  else [0xF0 + n / 262144, 0x80 + n / 4096 % 64, 0x80 + n / 64 % 64, 0x80 + n % 64]

/-- UTF-8 encoding of a string: Python's `str.encode()`. -/
def utf8Bytes (s : String) : List Nat :=
  (s.data.map utf8Char).flatten

/-- Little-endian byte representation of a natural number in `k` bytes
(the digits of `n` base 256, least significant first). -/
def natToLE : Nat → Nat → List Nat
  | 0, _ => []
  | k + 1, n => n % 256 :: natToLE k (n / 256)

/-- Decidable equality of `Except` results (for evaluating the embedded
code on concrete inputs). -/
instance {ε α : Type} [DecidableEq ε] [DecidableEq α] :
    DecidableEq (Except ε α) := fun x y =>
  match x, y with
  | .ok a, .ok b =>
    if h : a = b then .isTrue (by rw [h]) else
      .isFalse (fun hc => h (Except.ok.inj hc))
  | .error a, .error b =>
    if h : a = b then .isTrue (by rw [h]) else
      .isFalse (fun hc => h (Except.error.inj hc))
  | .ok _, .error _ => .isFalse (fun hc => Except.noConfusion hc)
  | .error _, .ok _ => .isFalse (fun hc => Except.noConfusion hc)

/-- Python exceptions that the embedded code can raise or catch. -/
inductive PyErr where
  /-- `TonConnectError(msg)` from `tonutils.tonconnect.utils.exceptions`. -/
  | tonConnect (msg : String)
  /-- `KeyError` (e.g. from `dict.pop` on a missing key). -/
  | keyError
  /-- `OverflowError` (from `int.to_bytes` on an out-of-range value). -/
  | overflowError
  deriving DecidableEq

/-- Python's `int.to_bytes(k, "little")` (with the default `signed=False`):
raises `OverflowError` for a negative value or a value that does not fit in
`k` bytes, otherwise returns the `k` little-endian bytes. -/
def intToBytesLE (n : Int) (k : Nat) : Except PyErr (List Nat) :=
  if n < 0 then .error .overflowError
  else if (2 : Int) ^ (8 * k) ≤ n then .error .overflowError
  else .ok (natToLE k n.toNat)

/-- Python's `bytes.fromhex` digit test. -/
def isHexChar (c : Char) : Bool :=
  (48 ≤ c.toNat && c.toNat ≤ 57) || (65 ≤ c.toNat && c.toNat ≤ 70) ||
  (97 ≤ c.toNat && c.toNat ≤ 102)

/-- Numeric value of a hex digit character (lower- or upper-case). -/
def hexCharVal (c : Char) : Nat :=
  if c.toNat ≤ 57 then c.toNat - 48
  else if c.toNat ≤ 70 then c.toNat - 55
  else c.toNat - 87

/-- ASCII whitespace as skipped by `bytes.fromhex`. -/
def isPySpace (c : Char) : Bool :=
  c.toNat = 32 || c.toNat = 9 || c.toNat = 10 || c.toNat = 13 ||
  c.toNat = 11 || c.toNat = 12

/-- Python's `bytes.fromhex`: ASCII whitespace may separate byte pairs;
each byte is exactly two contiguous hex digits; anything else raises
`ValueError` (modelled as `none`). -/
def fromHex? : List Char → Option (List Nat)
  | [] => some []
  | c1 :: rest =>
    if isPySpace c1 then fromHex? rest
    else
      match rest with
      | c2 :: rest' =>
        if isHexChar c1 && isHexChar c2 then
          (fromHex? rest').map (fun bs => (hexCharVal c1 * 16 + hexCharVal c2) :: bs)
        else none
      | [] => none

/-! ## Data model

`Address`, `Account`, `TonProof` and `DeviceInfo` live in
`tonutils/tonconnect/models` which is not part of the sources at hand; only
their fields used by `wallet.py` are modelled, following the specification's
data-model section (workchain `int32`, 32-byte hash, `uint64` timestamp,
`uint32` domain length, string-or-bytes public key, opaque device bag).
Integers are kept unbounded, as in Python, so that the range checks of the
code itself remain visible. -/

/-- The account's parsed address: workchain and hash part. -/
structure Address where
  wc : Int
  hash_part : List Nat
  deriving DecidableEq

/-- A Python public key value: the code accepts `str` (hex), `bytes`, and
treats any other runtime type as invalid. -/
inductive PublicKey where
  | pstr (s : String)
  | pbytes (b : List Nat)
  | pother
  deriving DecidableEq

/-- The wallet account attached to a session. -/
structure Account where
  address : Address
  public_key : PublicKey
  chain : Option String
  deriving DecidableEq

/-- The signed TON proof challenge. -/
structure TonProof where
  timestamp : Int
  domain_len : Int
  domain_val : String
  payload : String
  signature : List Nat
  deriving DecidableEq

/-! ## Loosely-typed dictionary values (for payload parsing) -/

/-- A loosely-typed Python value stored in a payload dictionary. -/
inductive Val where
  | vstr (s : String)
  | vint (n : Int)
  | vbytes (b : List Nat)
  | vnone
  deriving DecidableEq

/-- A Python `dict` with string keys, as an association list. -/
abbrev Dict : Type := List (String × Val)

/-- `d.get(k)` / `d[k]` lookup: first entry with the given key. -/
def lookupD (k : String) : Dict → Option Val
  | [] => none
  | (k', v) :: rest => if k' = k then some v else lookupD k rest

/-- Removal of a key from a `dict` (the effect of `d.pop(k)`). -/
def eraseD (k : String) : Dict → Dict
  | [] => []
  | (k', v) :: rest => if k' = k then rest else (k', v) :: eraseD k rest

/-- Device metadata: an opaque key/value bag (per the data model). -/
structure DeviceInfo where
  fields : Dict
  deriving DecidableEq

/-- The connected-wallet session model (`WalletInfo` dataclass). -/
structure WalletInfo where
  device : Option DeviceInfo := none
  provider : String := "http"
  account : Option Account := none
  ton_proof : Option TonProof := none
  deriving DecidableEq

/-! ## The proof verifier (`WalletInfo.verify_proof`) -/

/-- The two external cryptographic primitives used by `verify_proof`:
`hashlib.sha256(·).digest()` and nacl's Ed25519 `VerifyKey(pk).verify(msg,
sig)` returning whether the signature is accepted. Both are stateless
library calls; theorems quantify over an arbitrary implementation. -/
structure Crypto where
  sha256 : List Nat → List Nat
  edVerify : List Nat → List Nat → List Nat → Bool

/-- Python `src_payload or self.ton_proof.payload`: the `or` of two strings
falls through on an *empty* (falsy) override, not only on `None`. -/
def pyOrStr (sp : Option String) (d : String) : String :=
  match sp with
  | none => d
  | some s => if s = "" then d else s

/-- Lines 141–148 of `wallet.py`: the `ton-proof-item-v2/` message built for
verification. Each `int.to_bytes` call can raise `OverflowError`; the
components are evaluated in source order. -/
def proofMessageE (account : Account) (proof : TonProof) (sp : Option String) :
    Except PyErr (List Nat) := do
  let wcB ← intToBytesLE account.address.wc 4
  let dlB ← intToBytesLE proof.domain_len 4
  let tsB ← intToBytesLE proof.timestamp 8
  .ok (utf8Bytes "ton-proof-item-v2/" ++ wcB ++ account.address.hash_part ++
    dlB ++ utf8Bytes proof.domain_val ++ tsB ++
    utf8Bytes (pyOrStr sp proof.payload))

/-- Lines 150–154 of `wallet.py`: the signature envelope
`0xFFFF ++ "ton-connect" ++ sha256(message)`. -/
def envelopeB (C : Crypto) (msg : List Nat) : List Nat :=
  [0xFF, 0xFF] ++ utf8Bytes "ton-connect" ++ C.sha256 msg

/-- Lines 156–168 of `wallet.py`: normalisation of the public key. A hex
`str` is decoded with `bytes.fromhex` (a `ValueError` is caught and turned
into `False`); `bytes` pass through; any other type yields `False`.
`none` here means "the function already returned `False`". -/
def decodePublicKey (pk : PublicKey) : Option (List Nat) :=
  match pk with
  | .pstr s => fromHex? s.data
  | .pbytes b => some b
  | .pother => none

/-- `WalletInfo.verify_proof` (lines 127–181 of `wallet.py`), with the
exception behaviour explicit: an uncaught Python exception is `.error`, a
normal return is `.ok`. The `try/except` around `VerifyKey(...)` and
`verify(...)` catches every exception, so a key of wrong length or a
signature of wrong length (both rejected by nacl with an exception) and a
failed signature check all collapse to `.ok false`. -/
def verify_proofE (C : Crypto) (w : WalletInfo) (sp : Option String) :
    Except PyErr Bool :=
  match w.ton_proof, w.account with
  | some proof, some account =>
    (proofMessageE account proof sp).bind (fun msg =>
      let sigMsg := envelopeB C msg
      match decodePublicKey account.public_key with
      | none => .ok false
      | some pkBytes =>
        if pkBytes.length = 32 then
          if proof.signature.length = 64 then
            .ok (C.edVerify pkBytes (C.sha256 sigMsg) proof.signature)
          else .ok false
        else .ok false)
  | _, _ => .ok false

/-! ## The session assembler (`WalletInfo.from_payload`)

`Account.from_dict`, `TonProof.from_dict` and `DeviceInfo.from_dict` belong
to `tonutils/tonconnect/models`, which is not among the sources at hand.
Per the specification they parse an item dictionary into the respective
model without touching the payload, so the assembler below is parametric in
those three parsers; every theorem about it holds for arbitrary parsers.

`item.pop("name")` mutates the item dictionary in place and raises
`KeyError` when the key is absent, so the assembler is modelled in explicit
state-passing style: it returns the result *and* the final state of the
payload. -/

/-- The incoming session payload `{"items": [...], "device": {...}}`:
`payload.get("items")` and `payload.get("device")`. -/
structure Payload where
  items : Option (List Dict)
  device : Option Dict
  deriving DecidableEq

/-- The `for item in items:` loop of `from_payload` (lines 197–202):
each iteration pops `"name"` from the item (mutating it; `KeyError` aborts
the loop) and funnels the item into the account or proof slot. Returns the
loop's outcome together with the final state of the items list. -/
def scanItems (pA : Dict → Account) (pP : Dict → TonProof) :
    List Dict → Option Account → Option TonProof →
    Except PyErr (Option Account × Option TonProof) × List Dict
  | [], acc, prf => (.ok (acc, prf), [])
  | item :: rest, acc, prf =>
    match lookupD "name" item with
    | none => (.error .keyError, item :: rest)
    | some nameVal =>
      let item' := eraseD "name" item
      let acc' := if nameVal = .vstr "ton_addr" then some (pA item') else acc
      let prf' := if nameVal = .vstr "ton_proof" then some (pP item') else prf
      let res := scanItems pA pP rest acc' prf'
      (res.1, item' :: res.2)

/-- `WalletInfo.from_payload` (lines 183–211 of `wallet.py`) in
state-passing style. `if not items` covers both an absent key and an empty
list; both `raise TonConnectError(...)` sites keep their messages;
`if device_info:` is dictionary truthiness, so an empty device dictionary is
ignored. The second component is the payload as left behind by the
(`"name"`-popping) loop. -/
def from_payloadSt (pA : Dict → Account) (pP : Dict → TonProof)
    (pD : Dict → DeviceInfo) (payload : Payload) :
    Except PyErr WalletInfo × Payload :=
  match payload.items with
  | none => (.error (.tonConnect "items not contains in payload"), payload)
  | some items =>
    if items = [] then
      (.error (.tonConnect "items not contains in payload"), payload)
    else
      let res := scanItems pA pP items none none
      let payload' : Payload := { payload with items := some res.2 }
      match res.1 with
      | .error e => (.error e, payload')
      | .ok (acc, prf) =>
        match acc with
        | none => (.error (.tonConnect "ton_addr not contains in items"), payload')
        | some a =>
          let dev : Option DeviceInfo :=
            match payload.device with
            | none => none
            | some dd => if dd = [] then none else some (pD dd)
          (.ok { device := dev, provider := "http",
                 account := some a, ton_proof := prf }, payload')

/-! ## Serialization (`from_dict` / `to_dict`)

`WalletApp.to_dict` emits a dictionary with a fixed set of keys (external
key `"deepLink"` for the internal `deep_link` field) and `from_dict` reads
exactly those keys back with `dict.get`, which yields `None` for an absent
key; the record below mirrors that fixed-key dictionary, every field
optional exactly as at the Python runtime. -/

/-- The `WalletApp` dataclass. Fields are optional because
`WalletApp.from_dict` uses `data.get(...)`, which stores `None` for any
absent key (the `str`-annotated fields included, per the
`# type: ignore` in the source). -/
structure WalletApp where
  app_name : Option String
  name : Option String
  image : Option String
  bridge_url : Option String
  tondns : Option String
  about_url : Option String
  universal_url : Option String
  deep_link : Option String
  platforms : Option (List String)
  deriving DecidableEq

/-- The dictionary shape produced by `WalletApp.to_dict` and consumed by
`WalletApp.from_dict`: note the external key `deepLink`. -/
structure WalletAppDict where
  app_name : Option String
  name : Option String
  image : Option String
  bridge_url : Option String
  tondns : Option String
  about_url : Option String
  universal_url : Option String
  deepLink : Option String
  platforms : Option (List String)
  deriving DecidableEq

/-- `WalletApp.from_dict` (lines 77–95): reads each external key, mapping
`deepLink` to `deep_link`. -/
def WalletApp.from_dict (d : WalletAppDict) : WalletApp :=
  { app_name := d.app_name
    name := d.name
    image := d.image
    bridge_url := d.bridge_url
    tondns := d.tondns
    about_url := d.about_url
    universal_url := d.universal_url
    deep_link := d.deepLink
    platforms := d.platforms }

/-- `WalletApp.to_dict` (lines 97–113): writes each field, mapping
`deep_link` to the external key `deepLink`. -/
def WalletApp.to_dict (a : WalletApp) : WalletAppDict :=
  { app_name := a.app_name
    name := a.name
    image := a.image
    bridge_url := a.bridge_url
    tondns := a.tondns
    about_url := a.about_url
    universal_url := a.universal_url
    deepLink := a.deep_link
    platforms := a.platforms }

/-- The dictionary shape produced by `WalletInfo.to_dict` and consumed by
`WalletInfo.from_dict`: the four fixed keys `device`, `provider`,
`account`, `ton_proof`, with sub-models serialized to their own
dictionaries (`Dict`) or `None`. -/
structure WalletInfoDict where
  device : Option Dict
  provider : Option String
  account : Option Dict
  ton_proof : Option Dict
  deriving DecidableEq

/-- `WalletInfo.from_dict` (lines 213–242), parametric in the sub-model
parsers (not part of the sources at hand): each sub-dictionary is parsed
when present (`is not None`), and `provider` falls back to `"http"`. -/
def WalletInfo.from_dictP (dF : Dict → DeviceInfo) (aF : Dict → Account)
    (pF : Dict → TonProof) (d : WalletInfoDict) : WalletInfo :=
  { device := d.device.map dF
    provider := d.provider.getD "http"
    account := d.account.map aF
    ton_proof := d.ton_proof.map pF }

/-- `WalletInfo.to_dict` (lines 244–255), parametric in the sub-model
serializers: each present sub-model is serialized, an absent one becomes
`None` (`x.to_dict() if x else None`; the dataclass instances are always
truthy, so the guard is a `None` test). -/
def WalletInfo.to_dictP (dT : DeviceInfo → Dict) (aT : Account → Dict)
    (pT : TonProof → Dict) (w : WalletInfo) : WalletInfoDict :=
  { device := w.device.map dT
    provider := some w.provider
    account := w.account.map aT
    ton_proof := w.ton_proof.map pT }

/-! ## The wallet-catalog URL normalizer
(`WalletApp.universal_url_to_direct_url`)

The transform is built from `urllib.parse` (`urlparse`, `parse_qs`,
`urlencode`, `geturl`). Those library calls are modelled at the byte level:
a URL string is a `List Nat` of bytes (for ASCII URLs this is exactly the
string; percent-escapes decode to raw bytes). The model follows the
documented behaviour of `urllib.parse`: scheme detection (leading ASCII
letter, scheme characters, lower-casing), netloc after `//` up to `/?#`,
fragment at the first `#`, query at the first `?`, `;params` split from the
last path segment, `parse_qs` with blank values dropped and plus/percent
decoding, and `urlencode(..., doseq=True)` quoting with `quote_plus`. -/

/-- Byte strings (URL model). -/
abbrev BStr : Type := List Nat

/-- ASCII letter. -/
def isAlphaB (b : Nat) : Bool :=
  (65 ≤ b && b ≤ 90) || (97 ≤ b && b ≤ 122)

/-- Characters allowed in a URL scheme: letters, digits, `+`, `-`, `.`. -/
def isSchemeCharB (b : Nat) : Bool :=
  isAlphaB b || (48 ≤ b && b ≤ 57) || b == 43 || b == 45 || b == 46

/-- ASCII lower-casing of a byte. -/
def toLowerB (b : Nat) : Nat :=
  if 65 ≤ b ∧ b ≤ 90 then b + 32 else b

/-- `urllib.parse` scheme split: if the text before the first `:` is a
non-empty run of scheme characters starting with a letter, it is the scheme
(lower-cased) and the rest follows the `:`; otherwise there is no scheme. -/
def splitSchemeB (u : BStr) : BStr × BStr :=
  let pre := u.takeWhile (fun b => b != 58)
  if pre.length < u.length && !pre.isEmpty &&
      isAlphaB (pre.headD 0) && pre.all isSchemeCharB then
    (pre.map toLowerB, u.drop (pre.length + 1))
  else ([], u)

/-- Netloc split: after a leading `//`, the netloc runs up to the first
`/`, `?` or `#`. -/
def splitNetlocB (u : BStr) : BStr × BStr :=
  if u.take 2 = [47, 47] then
    let after := u.drop 2
    (after.takeWhile (fun b => b != 47 && b != 63 && b != 35),
     after.dropWhile (fun b => b != 47 && b != 63 && b != 35))
  else ([], u)

/-- Split at the first occurrence of byte `c`: `(before, after)` when
present, `(s, [])` when absent (with a flag telling which). -/
def splitFirstB (c : Nat) (s : BStr) : BStr × BStr :=
  if s.contains c then
    (s.takeWhile (fun b => b != c), (s.dropWhile (fun b => b != c)).tail)
  else (s, [])

/-- Split a byte string around its last `/`: the first component is
everything up to and including the last slash, the second the rest; with
no slash the first component is empty. -/
def breakLastSlashB (u : BStr) : BStr × BStr :=
  ((u.reverse.dropWhile (fun b => b != 47)).reverse,
   (u.reverse.takeWhile (fun b => b != 47)).reverse)

/-- `urllib.parse._splitparams`: `;params` are split from the *last* path
segment (after the last `/` when there is one). -/
def splitParamsB (u : BStr) : BStr × BStr :=
  if u.contains 47 then
    let seg := (breakLastSlashB u).2
    if seg.contains 59 then
      ((breakLastSlashB u).1 ++ (splitFirstB 59 seg).1, (splitFirstB 59 seg).2)
    else (u, [])
  else
    if u.contains 59 then ((splitFirstB 59 u).1, (splitFirstB 59 u).2)
    else (u, [])

/-- The six components of `urlparse`'s result. -/
structure UrlParts where
  scheme : BStr
  netloc : BStr
  path : BStr
  params : BStr
  query : BStr
  fragment : BStr
  deriving DecidableEq

/-- ASCII encoding of a string (used for the byte-string literals of the
URL model; on ASCII text UTF-8 is the identity byte map). -/
def bsOf (s : String) : BStr := utf8Bytes s

/-- `urllib.parse.uses_netloc`: the schemes for which `urlunsplit` renders
a (possibly empty) `//` authority. -/
def usesNetloc : List BStr :=
  [bsOf "ftp", bsOf "http", bsOf "gopher", bsOf "nntp", bsOf "telnet",
   bsOf "imap", bsOf "wais", bsOf "file", bsOf "mms", bsOf "https",
   bsOf "shttp", bsOf "snews", bsOf "prospero", bsOf "rtsp", bsOf "rtsps",
   bsOf "rtspu", bsOf "rsync", bsOf "svn", bsOf "svn+ssh", bsOf "sftp",
   bsOf "nfs", bsOf "git", bsOf "git+ssh", bsOf "ws", bsOf "wss"]

/-- `urllib.parse.uses_params` without the empty scheme (which is handled
separately): the schemes whose URLs carry `;params`. -/
def usesParams : List BStr :=
  [bsOf "ftp", bsOf "hdl", bsOf "prospero", bsOf "http", bsOf "imap",
   bsOf "https", bsOf "shttp", bsOf "rtsp", bsOf "rtsps", bsOf "rtspu",
   bsOf "sip", bsOf "sips", bsOf "mms", bsOf "sftp", bsOf "tel"]

/-- `urlsplit`'s input normalisation: strip leading C0-control/space bytes,
then remove every tab, carriage return and newline. -/
def cleanUrlB (u : BStr) : BStr :=
  (u.dropWhile (fun b => b ≤ 32)).filter (fun b => b != 9 && b != 10 && b != 13)

/-- `urllib.parse.urlparse` on a byte string: input normalisation, scheme,
then netloc, then fragment at the first `#`, then query at the first `?`,
then (for a scheme that uses them) `;params` from the last path segment. -/
def urlparseB (u : BStr) : UrlParts :=
  let u := cleanUrlB u
  let (scheme, rest) := splitSchemeB u
  let (netloc, rest) := splitNetlocB rest
  let (rest, fragment) := splitFirstB 35 rest
  let (rest, query) := splitFirstB 63 rest
  if (scheme = [] || usesParams.contains scheme) && rest.contains 59 then
    let (path, params) := splitParamsB rest
    ⟨scheme, netloc, path, params, query, fragment⟩
  else ⟨scheme, netloc, rest, [], query, fragment⟩

/-- `urllib.parse.urlunsplit` (CPython 3.11): the `//` authority marker is
rendered when the netloc is non-empty, or when the scheme is one of
`uses_netloc` and the path does not already start with `//`. -/
def urlunsplitB (scheme netloc url query fragment : BStr) : BStr :=
  let url :=
    if !netloc.isEmpty ||
        (!scheme.isEmpty && usesNetloc.contains scheme && url.take 2 ≠ [47, 47]) then
      [47, 47] ++ netloc ++
        (if !url.isEmpty && url.take 1 ≠ [47] then 47 :: url else url)
    else url
  let url := if !scheme.isEmpty then scheme ++ [58] ++ url else url
  let url := if !query.isEmpty then url ++ [63] ++ query else url
  if !fragment.isEmpty then url ++ [35] ++ fragment else url

/-- `ParseResult.geturl` = `urlunparse`: params are re-attached to the path
with `;`, then `urlunsplit`. -/
def geturlB (p : UrlParts) : BStr :=
  urlunsplitB p.scheme p.netloc
    (if p.params.isEmpty then p.path else p.path ++ [59] ++ p.params)
    p.query p.fragment

/-! ### `parse_qs` and `urlencode` -/

/-- Hex digit test on a byte (both cases). -/
def isHexB (b : Nat) : Bool :=
  (48 ≤ b && b ≤ 57) || (65 ≤ b && b ≤ 70) || (97 ≤ b && b ≤ 102)

/-- Value of a hex digit byte. -/
def hexValB (b : Nat) : Nat :=
  if b ≤ 57 then b - 48 else if b ≤ 70 then b - 55 else b - 87

/-- `urllib.parse.unquote`: `%XX` with two hex digits decodes to a byte;
a `%` not followed by two hex digits stays literal and scanning resumes at
the next byte. -/
def unquoteB (s : BStr) : BStr :=
  match s with
  | [] => []
  | b :: rest =>
    if b = 37 then
      match rest with
      | h1 :: h2 :: rest' =>
        if isHexB h1 && isHexB h2 then
          (hexValB h1 * 16 + hexValB h2) :: unquoteB rest'
        else 37 :: unquoteB (h1 :: h2 :: rest')
      | [] => [37]
      | [h1] => [37, h1]
    else b :: unquoteB rest
termination_by s.length
decreasing_by all_goals simp +arith [List.length]

/-- `unquote_plus`: `+` becomes a space, then percent-decoding. -/
def unquotePlusB (s : BStr) : BStr :=
  unquoteB (s.map (fun b => if b = 43 then 32 else b))

/-- Bytes `quote_plus` leaves unescaped: ASCII alphanumerics and
`_`, `.`, `-`, `~`. -/
def isSafeB (b : Nat) : Bool :=
  (48 ≤ b && b ≤ 57) || (65 ≤ b && b ≤ 90) || (97 ≤ b && b ≤ 122) ||
  b == 95 || b == 46 || b == 45 || b == 126

/-- Upper-case hex digit byte for a value below 16. -/
def hexDigitB (n : Nat) : Nat :=
  if n < 10 then 48 + n else 55 + n

/-- `quote_plus` on one byte: safe bytes unchanged, space to `+`, anything
else percent-escaped with upper-case hex. -/
def quoteByteB (b : Nat) : BStr :=
  if isSafeB b then [b]
  else if b = 32 then [43]
  else [37, hexDigitB (b / 16 % 16), hexDigitB (b % 16)]

/-- `quote_plus` on a byte string. -/
def quotePlusB (s : BStr) : BStr :=
  (s.map quoteByteB).flatten

/-- Split a byte string on every occurrence of byte `sep`
(Python `str.split`; the empty string yields one empty field). -/
def splitSepB (sep : Nat) : BStr → List BStr
  | [] => [[]]
  | b :: rest =>
    match splitSepB sep rest with
    | [] => [[]]
    | g :: gs => if b = sep then [] :: g :: gs else (b :: g) :: gs

/-- One field of `parse_qsl`: an empty field or a field without `=` is
skipped, a blank value is dropped (`keep_blank_values=False`), name and
value are `unquote_plus`-decoded. -/
def qslField (field : BStr) : Option (BStr × BStr) :=
  if field = [] then none
  else if field.contains 61 then
    if (splitFirstB 61 field).2 = [] then none
    else some (unquotePlusB (splitFirstB 61 field).1,
               unquotePlusB (splitFirstB 61 field).2)
  else none

/-- `urllib.parse.parse_qsl` with default arguments: fields split on `&`,
then parsed one by one. -/
def parseQslB (q : BStr) : List (BStr × BStr) :=
  (splitSepB 38 q).filterMap qslField

/-- Insertion into the `parse_qs` dictionary: a repeated key appends to its
value list, a new key goes to the end (dict insertion order). -/
def qsInsert (k v : BStr) : List (BStr × List BStr) → List (BStr × List BStr)
  | [] => [(k, [v])]
  | (k', vs) :: rest =>
    if k' = k then (k', vs ++ [v]) :: rest else (k', vs) :: qsInsert k v rest

/-- `urllib.parse.parse_qs`: the pair list grouped into a dictionary of
value lists. -/
def parseQsB (q : BStr) : List (BStr × List BStr) :=
  (parseQslB q).foldl (fun acc kv => qsInsert kv.1 kv.2 acc) []

/-- Dictionary lookup in the `parse_qs` result. -/
def lookupQ (k : BStr) (d : List (BStr × List BStr)) : Option (List BStr) :=
  match d with
  | [] => none
  | (k', vs) :: rest => if k' = k then some vs else lookupQ k rest

/-- Key removal from the `parse_qs` result (`dict.pop`). -/
def eraseQ (k : BStr) : List (BStr × List BStr) → List (BStr × List BStr)
  | [] => []
  | (k', vs) :: rest => if k' = k then rest else (k', vs) :: eraseQ k rest

/-- Python's `sep.join`: fields joined with a single separator byte. -/
def joinSepB (sep : Nat) : List BStr → BStr
  | [] => []
  | [f] => f
  | f :: g :: rest => f ++ sep :: joinSepB sep (g :: rest)

/-- `urllib.parse.urlencode(d, doseq=True)`: one `key=value` field per list
element, keys and values `quote_plus`-quoted, fields joined with `&`. -/
def urlencodeB (d : List (BStr × List BStr)) : BStr :=
  joinSepB 38
    ((d.map (fun kv =>
      kv.2.map (fun v => quotePlusB kv.1 ++ 61 :: quotePlusB v))).flatten)

/-! ### The transform itself -/

/-- The byte string `"attach"`. -/
def attachKey : BStr := [97, 116, 116, 97, 99, 104]

/-- The byte string `"/start"`. -/
def startSeg : BStr := [47, 115, 116, 97, 114, 116]

/-- `rstrip("/")`. -/
def rstripSlashB (p : BStr) : BStr :=
  (p.reverse.dropWhile (fun b => b == 47)).reverse

/-- The path rewrite of lines 67–69: trailing slashes trimmed, `/start`
appended unless already the suffix. -/
def directPathB (p : BStr) : BStr :=
  let np := rstripSlashB p
  if startSeg.isSuffixOf np then np else np ++ startSeg

/-- `universal_url_to_direct_url` on parsed components (lines 62–74): if an
`attach` query parameter is present it is popped and the path rewritten;
either way the remaining parameters are re-encoded. -/
def directParts (p : UrlParts) : UrlParts :=
  let d := parseQsB p.query
  if (lookupQ attachKey d).isSome then
    { p with path := directPathB p.path, query := urlencodeB (eraseQ attachKey d) }
  else
    { p with query := urlencodeB d }

/-- `WalletApp.universal_url_to_direct_url` (lines 54–75): parse, transform,
reassemble. -/
def universal_url_to_direct_url (u : BStr) : BStr :=
  geturlB (directParts (urlparseB u))

/-! ### Invariants used to reason about parse/unparse round trips -/

/-- A well-formed scheme component: non-empty, letter-initial, scheme
characters only, already lower-case (the form `urlparse` produces). -/
def ValidSchemeB (s : BStr) : Prop :=
  s ≠ [] ∧ isAlphaB (s.headD 0) = true ∧
  (∀ b ∈ s, isSchemeCharB b = true) ∧ (∀ b ∈ s, toLowerB b = b)

/-- No tab, carriage-return or newline byte (the bytes `urlsplit` removes
from its input). -/
def CleanB (s : BStr) : Prop := ∀ b ∈ s, ¬(b = 9 ∨ b = 10 ∨ b = 13)

/-- The shape of component tuples produced by parsing a URL with a
non-empty authority and re-encoding its query: everything `geturl` needs
for its output to parse back to exactly these components. -/
structure PartsInv (p : UrlParts) : Prop where
  scheme_ok : p.scheme = [] ∨ ValidSchemeB p.scheme
  netloc_ne : p.netloc ≠ []
  netloc_stop : ∀ b ∈ p.netloc, b ≠ 47 ∧ b ≠ 63 ∧ b ≠ 35
  path_qf : ∀ b ∈ p.path, b ≠ 63 ∧ b ≠ 35
  path_slash : (p.path = [] ∧ p.params = []) ∨ p.path.take 1 = [47]
  params_ok : ∀ b ∈ p.params, b ≠ 63 ∧ b ≠ 35 ∧ b ≠ 47
  params_gate : p.params ≠ [] →
    (p.scheme = [] ∨ usesParams.contains p.scheme = true)
  semi_tail : (p.scheme = [] ∨ usesParams.contains p.scheme = true) →
    59 ∉ (breakLastSlashB p.path).2
  query_ok : ∀ b ∈ p.query, b ≠ 63 ∧ b ≠ 35
  clean_scheme : CleanB p.scheme
  clean_netloc : CleanB p.netloc
  clean_path : CleanB p.path
  clean_params : CleanB p.params
  clean_query : CleanB p.query
  clean_fragment : CleanB p.fragment

/-- The shape of `parse_qs` outputs: no duplicate keys, no empty value
list, no empty value, all bytes below 256. -/
structure QDictInv (d : List (BStr × List BStr)) : Prop where
  keys_nodup : (d.map Prod.fst).Nodup
  vals_ne : ∀ kv ∈ d, kv.2 ≠ []
  val_ne : ∀ kv ∈ d, ∀ v ∈ kv.2, v ≠ []
  bytes_lt : ∀ kv ∈ d, (∀ b ∈ kv.1, b < 256) ∧ ∀ v ∈ kv.2, ∀ b ∈ v, b < 256

/-- The flat pair list a query dictionary denotes (used to relate
`urlencode` and `parse_qsl`). -/
def pairsOf (d : List (BStr × List BStr)) : List (BStr × BStr) :=
  (d.map (fun kv => kv.2.map (fun v => (kv.1, v)))).flatten

/-- Whether the items list holds an item whose `"name"` value is the given
string (the condition the loop of `from_payload` selects on). -/
def hasItemNamed (n : String) (items : List Dict) : Bool :=
  items.any (fun d => lookupD "name" d == some (.vstr n))

/-- Whether an embedded Python call returned normally. -/
def isOkE {α : Type} (e : Except PyErr α) : Bool :=
  match e with
  | .ok _ => true
  | .error _ => false

/-! ## Concrete instances used by specific claims -/

/-- A concrete crypto instance: identity hash, all signatures accepted. -/
def acceptCrypto : Crypto := { sha256 := fun l => l, edVerify := fun _ _ _ => true }

/-- A masterchain account: workchain `-1`, inside the `int32` range of the
data model and the standard value for TON masterchain addresses. -/
def mcAccount : Account :=
  { address := { wc := -1, hash_part := List.replicate 32 0 },
    public_key := .pbytes (List.replicate 32 0), chain := none }

/-- A well-formed proof value (all fields in range). -/
def mcProof : TonProof :=
  { timestamp := 1700000000, domain_len := 7, domain_val := "app.com",
    payload := "x", signature := List.replicate 64 0 }

/-- A wallet session holding the masterchain account. -/
def mcWallet : WalletInfo :=
  { device := none, provider := "http",
    account := some mcAccount, ton_proof := some mcProof }

/-- A basechain account: workchain `0`, 32-byte key and hash. -/
def basechainAccount : Account :=
  { address := { wc := 0, hash_part := List.replicate 32 7 },
    public_key := .pbytes (List.replicate 32 9), chain := none }

/-- A proof whose `domain_len` (5) disagrees with the byte length (3) of
its `domain_val`. -/
def mismatchProof : TonProof :=
  { timestamp := 5, domain_len := 5, domain_val := "app",
    payload := "pl", signature := List.replicate 64 4 }

/-- A wallet session with the mismatched proof. -/
def mismatchWallet : WalletInfo :=
  { device := none, provider := "http",
    account := some basechainAccount, ton_proof := some mismatchProof }

/-- A proof whose `domain_len` is `-1` — also different from the byte
length of its `domain_val`, but outside the encodable range. -/
def negDomainLenProof : TonProof :=
  { timestamp := 5, domain_len := -1, domain_val := "app",
    payload := "pl", signature := List.replicate 64 4 }

/-- A wallet session with the negative-`domain_len` proof. -/
def negDomainLenWallet : WalletInfo :=
  { device := none, provider := "http",
    account := some basechainAccount, ton_proof := some negDomainLenProof }

/-- A proof with a non-empty payload, for the override-payload claim. -/
def overrideProof : TonProof :=
  { timestamp := 5, domain_len := 3, domain_val := "app",
    payload := "x", signature := List.replicate 64 4 }

/-- A device serializer for concrete round-trip instances: the opaque bag
itself. -/
def devToDict (di : DeviceInfo) : Dict := di.fields

/-- The corresponding device parser. -/
def devFromDict (d : Dict) : DeviceInfo := ⟨d⟩

/-- An account serializer for concrete round-trip instances. -/
def accToDict (a : Account) : Dict :=
  [("wc", .vint a.address.wc), ("hash", .vbytes a.address.hash_part),
   ("pk", match a.public_key with
      | .pstr s => .vstr s
      | .pbytes b => .vbytes b
      | .pother => .vnone),
   ("chain", match a.chain with | none => .vnone | some s => .vstr s)]

/-- The corresponding account parser. -/
def accFromDict (d : Dict) : Account :=
  { address :=
      { wc := match lookupD "wc" d with | some (.vint n) => n | _ => 0,
        hash_part := match lookupD "hash" d with | some (.vbytes b) => b | _ => [] },
    public_key := match lookupD "pk" d with
      | some (.vstr s) => .pstr s
      | some (.vbytes b) => .pbytes b
      | _ => .pother,
    chain := match lookupD "chain" d with | some (.vstr s) => some s | _ => none }

/-- A proof serializer for concrete round-trip instances. -/
def proofToDict (p : TonProof) : Dict :=
  [("timestamp", .vint p.timestamp), ("domain_len", .vint p.domain_len),
   ("domain_val", .vstr p.domain_val), ("payload", .vstr p.payload),
   ("signature", .vbytes p.signature)]

/-- The corresponding proof parser. -/
def proofFromDict (d : Dict) : TonProof :=
  { timestamp := match lookupD "timestamp" d with | some (.vint n) => n | _ => 0,
    domain_len := match lookupD "domain_len" d with | some (.vint n) => n | _ => 0,
    domain_val := match lookupD "domain_val" d with | some (.vstr s) => s | _ => "",
    payload := match lookupD "payload" d with | some (.vstr s) => s | _ => "",
    signature := match lookupD "signature" d with | some (.vbytes b) => b | _ => [] }

/-- A fully-populated catalog entry for the round-trip witness. -/
def sampleApp : WalletApp :=
  { app_name := some "tonkeeper", name := some "Tonkeeper",
    image := some "https://img.example/i.png", bridge_url := some "https://b.example",
    tondns := none, about_url := some "https://a.example",
    universal_url := some "https://app.tonkeeper.com/ton-connect",
    deep_link := some "tonkeeper-tc://", platforms := some ["ios", "android"] }

/-- A fully-populated session for the round-trip witness. -/
def sampleInfo : WalletInfo :=
  { device := some ⟨[("platform", .vstr "ios")]⟩, provider := "http",
    account := some basechainAccount, ton_proof := some overrideProof }

/-- The correctly-formed proof message as the specification words it
(§4.2), with the domain-length field equal to the *actual* byte length of
`domain_val` — the message the wallet actually signs. Written from the
spec, to be compared with the message the code builds. -/
def specProofMessage (a : Account) (p : TonProof) : List Nat :=
  utf8Bytes "ton-proof-item-v2/" ++ natToLE 4 a.address.wc.toNat ++
    a.address.hash_part ++ natToLE 4 (utf8Bytes p.domain_val).length ++
    utf8Bytes p.domain_val ++ natToLE 8 p.timestamp.toNat ++
    utf8Bytes p.payload

/-- A crypto instance with identity hash whose verifier accepts exactly
the digest of the correctly-formed envelope for `mismatchProof` under
`basechainAccount`: the proof's signature is valid for precisely the
specification's message and no other digest. -/
def mismatchCrypto : Crypto :=
  { sha256 := fun l => l,
    edVerify := fun _ d _ =>
      d == [0xFF, 0xFF] ++ utf8Bytes "ton-connect" ++
        specProofMessage basechainAccount mismatchProof }

/-! ## Helper lemmas -/

theorem natToLE_injOn (k : Nat) :
    ∀ a b, a < 256 ^ k → b < 256 ^ k → natToLE k a = natToLE k b → a = b := by
  induction k with
  | zero =>
    intro a b ha hb _
    simp [pow_zero] at ha hb
    omega
  | succ k ih =>
    intro a b ha hb h
    simp only [natToLE, List.cons.injEq] at h
    have ha' : a / 256 < 256 ^ k := by
      rw [Nat.div_lt_iff_lt_mul (by norm_num)]
      calc a < 256 ^ (k + 1) := ha
        _ = 256 ^ k * 256 := by rw [pow_succ]
    have hb' : b / 256 < 256 ^ k := by
      rw [Nat.div_lt_iff_lt_mul (by norm_num)]
      calc b < 256 ^ (k + 1) := hb
        _ = 256 ^ k * 256 := by rw [pow_succ]
    have := ih (a / 256) (b / 256) ha' hb' h.2
    omega

/-- `intToBytesLE` succeeds exactly on the unsigned range of its width. -/
theorem intToBytesLE_ok (n : Int) (k : Nat) (h0 : 0 ≤ n)
    (h1 : n < (2 : Int) ^ (8 * k)) :
    intToBytesLE n k = .ok (natToLE k n.toNat) := by
  unfold intToBytesLE
  rw [if_neg (by omega), if_neg (by omega)]

theorem natToLE_length (k n : Nat) : (natToLE k n).length = k := by
  induction k generalizing n with
  | zero => rfl
  | succ k ih => simp [natToLE, ih]

/-- The proof message construction succeeds when the workchain and domain
length fit 4 unsigned bytes and the timestamp fits 8. -/
theorem proofMessageE_ok (a : Account) (p : TonProof) (sp : Option String)
    (hwc0 : 0 ≤ a.address.wc) (hwc1 : a.address.wc < 2 ^ 32)
    (hdl0 : 0 ≤ p.domain_len) (hdl1 : p.domain_len < 2 ^ 32)
    (hts0 : 0 ≤ p.timestamp) (hts1 : p.timestamp < 2 ^ 64) :
    proofMessageE a p sp = .ok (utf8Bytes "ton-proof-item-v2/" ++
      natToLE 4 a.address.wc.toNat ++ a.address.hash_part ++
      natToLE 4 p.domain_len.toNat ++ utf8Bytes p.domain_val ++
      natToLE 8 p.timestamp.toNat ++ utf8Bytes (pyOrStr sp p.payload)) := by
  unfold proofMessageE
  rw [intToBytesLE_ok a.address.wc 4 hwc0 (by norm_num; exact hwc1),
    intToBytesLE_ok p.domain_len 4 hdl0 (by norm_num; exact hdl1),
    intToBytesLE_ok p.timestamp 8 hts0 (by norm_num; exact hts1)]
  rfl

/-! ## Claim C1 -/

/-- Claim C1 (code bug): `verify_proof` is *not* exception-free. For a
masterchain account (workchain `-1`, a standard TON value inside the
`int32` range of the data model) the call `wc.to_bytes(4, "little")` on
line 143 runs with the default `signed=False` outside every `try` block,
so Python raises an uncaught `OverflowError` instead of returning a
boolean. This theorem evaluates the embedded code at that failing input. -/
theorem verify_proof_raises_on_negative_workchain :
    verify_proofE acceptCrypto mcWallet none = .error .overflowError := by rfl

/-! ## Claim C2 -/

/-- Claim C2 counterexample: the claim quantifies over *every* `WalletInfo`
with account and proof present, but for a masterchain account
(workchain `-1`) `verify_proof` raises `OverflowError` rather than
building the message and returning the signature check: it returns no
boolean at all at this input. -/
theorem verify_proof_no_boolean_on_negative_workchain :
    verify_proofE acceptCrypto mcWallet none = .error .overflowError ∧
    verify_proofE acceptCrypto mcWallet none ≠ .ok true ∧
    verify_proofE acceptCrypto mcWallet none ≠ .ok false := by
  refine ⟨rfl, ?_, ?_⟩ <;> intro h <;> exact Except.noConfusion h

/-- Claim C2 (amended with the ranges the counterexample forces): for
every `WalletInfo` with account and proof present whose workchain and
domain length lie in `[0, 2^32)` and whose timestamp lies in `[0, 2^64)`
(outside those ranges line 143/145/147 raises `OverflowError`), with a
32-byte public key and a 64-byte signature, `verify_proof` builds exactly
the message `"ton-proof-item-v2/" ++ wc_le32 ++ hash ++ domain_len_le32 ++
domain ++ timestamp_le64 ++ payload`, wraps its SHA-256 digest in the
envelope `0xFFFF ++ "ton-connect" ++ digest`, and returns the signature
check of the envelope's SHA-256 digest under the account's public key. -/
theorem verify_proof_message_layout (C : Crypto) (w : WalletInfo)
    (a : Account) (p : TonProof) (pk : List Nat)
    (ha : w.account = some a) (hp : w.ton_proof = some p)
    (hpk : a.public_key = .pbytes pk)
    (hpkLen : pk.length = 32) (hsigLen : p.signature.length = 64)
    (hwc0 : 0 ≤ a.address.wc) (hwc1 : a.address.wc < 2 ^ 32)
    (hdl0 : 0 ≤ p.domain_len) (hdl1 : p.domain_len < 2 ^ 32)
    (hts0 : 0 ≤ p.timestamp) (hts1 : p.timestamp < 2 ^ 64) :
    verify_proofE C w none =
      .ok (C.edVerify pk
        (C.sha256 ([0xFF, 0xFF] ++ utf8Bytes "ton-connect" ++
          C.sha256 (utf8Bytes "ton-proof-item-v2/" ++
            natToLE 4 a.address.wc.toNat ++ a.address.hash_part ++
            natToLE 4 p.domain_len.toNat ++ utf8Bytes p.domain_val ++
            natToLE 8 p.timestamp.toNat ++ utf8Bytes p.payload)))
        p.signature) := by
  simp only [verify_proofE, hp, ha,
    proofMessageE_ok a p none hwc0 hwc1 hdl0 hdl1 hts0 hts1]
  simp only [Except.bind, envelopeB, decodePublicKey, hpk, hpkLen, hsigLen,
    pyOrStr, if_true]

/-- Claim C2 witness: the layout theorem applied to a concrete wallet with
a basechain account. -/
theorem verify_proof_message_layout_witness :
    verify_proofE acceptCrypto
      { device := none, provider := "http",
        account := some basechainAccount, ton_proof := some overrideProof } none =
      .ok (acceptCrypto.edVerify (List.replicate 32 9)
        (acceptCrypto.sha256 ([0xFF, 0xFF] ++ utf8Bytes "ton-connect" ++
          acceptCrypto.sha256 (utf8Bytes "ton-proof-item-v2/" ++
            natToLE 4 basechainAccount.address.wc.toNat ++
            basechainAccount.address.hash_part ++
            natToLE 4 overrideProof.domain_len.toNat ++
            utf8Bytes overrideProof.domain_val ++
            natToLE 8 overrideProof.timestamp.toNat ++
            utf8Bytes overrideProof.payload)))
        overrideProof.signature) :=
  verify_proof_message_layout acceptCrypto
    { device := none, provider := "http",
      account := some basechainAccount, ton_proof := some overrideProof }
    basechainAccount overrideProof (List.replicate 32 9)
    rfl rfl rfl (by decide) (by decide) (by decide) (by decide)
    (by decide) (by decide) (by decide) (by decide)

/-! ## Claim C3 -/

/-- Claim C3 counterexample: `domain_len = -1` differs from the byte
length (3) of `domain_val`, yet `verify_proof` does not return `false`:
it raises `OverflowError` on line 145, so for this mismatched input the
failure is not "passed through to the cryptographic layer". -/
theorem verify_proof_mismatch_raises_on_negative_len :
    negDomainLenProof.domain_len ≠
      ((utf8Bytes negDomainLenProof.domain_val).length : Int) ∧
    verify_proofE acceptCrypto negDomainLenWallet none = .error .overflowError ∧
    verify_proofE acceptCrypto negDomainLenWallet none ≠ .ok false := by
  refine ⟨by decide, rfl, fun h => Except.noConfusion h⟩

/-- Claim C3 (amended with the ranges the counterexample forces): for
every `WalletInfo` with account and proof present whose integer fields lie
in the encodable unsigned ranges, if `domain_len` differs from the actual
byte length of `domain_val`, then `verify_proof` returns `false` (an
ordinary verification failure, not an exception) even when the signature
is a valid signature exactly over the correctly-formed message — stated
for any collision-free hash and any verifier that accepts the signature
only for the correct message's envelope digest. -/
theorem verify_proof_domain_len_mismatch (C : Crypto) (w : WalletInfo)
    (a : Account) (p : TonProof) (pk : List Nat)
    (ha : w.account = some a) (hp : w.ton_proof = some p)
    (hdec : decodePublicKey a.public_key = some pk)
    (hwc0 : 0 ≤ a.address.wc) (hwc1 : a.address.wc < 2 ^ 32)
    (hdl0 : 0 ≤ p.domain_len) (hdl1 : p.domain_len < 2 ^ 32)
    (hts0 : 0 ≤ p.timestamp) (hts1 : p.timestamp < 2 ^ 64)
    (hlen : (utf8Bytes p.domain_val).length < 2 ^ 32)
    (hne : p.domain_len ≠ ((utf8Bytes p.domain_val).length : Int))
    (hInj : Function.Injective C.sha256)
    (_hValid : C.edVerify pk (C.sha256 (envelopeB C (specProofMessage a p)))
      p.signature = true)
    (hOnly : ∀ d, C.edVerify pk d p.signature = true →
      d = C.sha256 (envelopeB C (specProofMessage a p))) :
    verify_proofE C w none = .ok false := by
  have hmsg := proofMessageE_ok a p none hwc0 hwc1 hdl0 hdl1 hts0 hts1
  have h2to32 : (256 : Nat) ^ 4 = 2 ^ 32 := by norm_num
  have hMne : utf8Bytes "ton-proof-item-v2/" ++ natToLE 4 a.address.wc.toNat ++
      a.address.hash_part ++ natToLE 4 p.domain_len.toNat ++
      utf8Bytes p.domain_val ++ natToLE 8 p.timestamp.toNat ++
      utf8Bytes (pyOrStr none p.payload) ≠ specProofMessage a p := by
    intro hEq
    unfold specProofMessage at hEq
    simp only [List.append_assoc] at hEq
    have h1 := List.append_cancel_left hEq
    have h2 := List.append_cancel_left h1
    have h3 := List.append_cancel_left h2
    have h4 := (List.append_inj h3 (by rw [natToLE_length, natToLE_length])).1
    have h5 := natToLE_injOn 4 _ _ (by rw [h2to32]; omega) (by rw [h2to32]; omega) h4
    omega
  have hEv : C.edVerify pk
      (C.sha256 (envelopeB C (utf8Bytes "ton-proof-item-v2/" ++
        natToLE 4 a.address.wc.toNat ++ a.address.hash_part ++
        natToLE 4 p.domain_len.toNat ++ utf8Bytes p.domain_val ++
        natToLE 8 p.timestamp.toNat ++ utf8Bytes (pyOrStr none p.payload))))
      p.signature = false := by
    cases hcase : C.edVerify pk
        (C.sha256 (envelopeB C (utf8Bytes "ton-proof-item-v2/" ++
          natToLE 4 a.address.wc.toNat ++ a.address.hash_part ++
          natToLE 4 p.domain_len.toNat ++ utf8Bytes p.domain_val ++
          natToLE 8 p.timestamp.toNat ++ utf8Bytes (pyOrStr none p.payload))))
        p.signature with
    | false => rfl
    | true =>
      exfalso
      have henv := hInj (hOnly _ hcase)
      unfold envelopeB at henv
      simp only [List.append_assoc] at henv
      have hM2 := hInj (List.append_cancel_left (List.append_cancel_left henv))
      exact hMne (by simpa [List.append_assoc] using hM2)
  simp only [verify_proofE, hp, ha, hmsg]
  simp only [Except.bind, hdec]
  by_cases h32 : pk.length = 32
  · by_cases h64 : p.signature.length = 64
    · rw [if_pos h32, if_pos h64, hEv]
    · rw [if_pos h32, if_neg h64]
  · rw [if_neg h32]

/-- Claim C3 witness: the mismatch theorem applied to a concrete wallet
whose signature is valid exactly over the correctly-formed message, under
the identity hash. -/
theorem verify_proof_domain_len_mismatch_witness :
    verify_proofE mismatchCrypto mismatchWallet none = .ok false :=
  verify_proof_domain_len_mismatch mismatchCrypto mismatchWallet
    basechainAccount mismatchProof (List.replicate 32 9)
    rfl rfl rfl (by decide) (by decide) (by decide) (by decide)
    (by decide) (by decide) (by decide) (by decide)
    (fun _ _ h => h) (by decide) (fun d h => eq_of_beq h)

/-! ## Claim C5 -/

/-- Claim C5 counterexample: with the override payload `""` supplied, the
code uses the proof's own payload `"x"` (Python `or` falls through on an
empty, falsy string), not the supplied override, so the built message is
not the one the claim prescribes (whose payload portion would be empty). -/
theorem override_payload_empty_ignored :
    proofMessageE basechainAccount overrideProof (some "") =
      .ok (utf8Bytes "ton-proof-item-v2/" ++ natToLE 4 0 ++
        List.replicate 32 7 ++ natToLE 4 3 ++ utf8Bytes "app" ++
        natToLE 8 5 ++ utf8Bytes "x") ∧
    proofMessageE basechainAccount overrideProof (some "") ≠
      .ok (utf8Bytes "ton-proof-item-v2/" ++ natToLE 4 0 ++
        List.replicate 32 7 ++ natToLE 4 3 ++ utf8Bytes "app" ++
        natToLE 8 5 ++ utf8Bytes "") := by
  exact ⟨by decide, by decide⟩

/-- Claim C5 (amended as the counterexample forces): with account and
proof fields in the encodable ranges, a *non-empty* override payload
string is used as the payload portion of the verification message; with
no override — or an *empty* override, which Python's `or` treats like
`None` — the proof's own payload is used. -/
theorem proof_message_payload_choice (a : Account) (p : TonProof)
    (hwc0 : 0 ≤ a.address.wc) (hwc1 : a.address.wc < 2 ^ 32)
    (hdl0 : 0 ≤ p.domain_len) (hdl1 : p.domain_len < 2 ^ 32)
    (hts0 : 0 ≤ p.timestamp) (hts1 : p.timestamp < 2 ^ 64) :
    (∀ s : String, s ≠ "" → proofMessageE a p (some s) =
      .ok (utf8Bytes "ton-proof-item-v2/" ++ natToLE 4 a.address.wc.toNat ++
        a.address.hash_part ++ natToLE 4 p.domain_len.toNat ++
        utf8Bytes p.domain_val ++ natToLE 8 p.timestamp.toNat ++
        utf8Bytes s)) ∧
    proofMessageE a p none =
      .ok (utf8Bytes "ton-proof-item-v2/" ++ natToLE 4 a.address.wc.toNat ++
        a.address.hash_part ++ natToLE 4 p.domain_len.toNat ++
        utf8Bytes p.domain_val ++ natToLE 8 p.timestamp.toNat ++
        utf8Bytes p.payload) ∧
    proofMessageE a p (some "") =
      .ok (utf8Bytes "ton-proof-item-v2/" ++ natToLE 4 a.address.wc.toNat ++
        a.address.hash_part ++ natToLE 4 p.domain_len.toNat ++
        utf8Bytes p.domain_val ++ natToLE 8 p.timestamp.toNat ++
        utf8Bytes p.payload) := by
  refine ⟨fun s hs => ?_, ?_, ?_⟩
  · rw [proofMessageE_ok a p _ hwc0 hwc1 hdl0 hdl1 hts0 hts1]
    simp only [pyOrStr, if_neg hs]
  · rw [proofMessageE_ok a p _ hwc0 hwc1 hdl0 hdl1 hts0 hts1]
    rfl
  · rw [proofMessageE_ok a p _ hwc0 hwc1 hdl0 hdl1 hts0 hts1]
    simp [pyOrStr]

/-- Claim C5 witness: the payload-choice theorem applied to a concrete
account and proof, with override `"y"` and with no override. -/
theorem proof_message_payload_choice_witness :
    proofMessageE basechainAccount overrideProof (some "y") =
      .ok (utf8Bytes "ton-proof-item-v2/" ++
        natToLE 4 basechainAccount.address.wc.toNat ++
        basechainAccount.address.hash_part ++
        natToLE 4 overrideProof.domain_len.toNat ++
        utf8Bytes overrideProof.domain_val ++
        natToLE 8 overrideProof.timestamp.toNat ++ utf8Bytes "y") ∧
    proofMessageE basechainAccount overrideProof none =
      .ok (utf8Bytes "ton-proof-item-v2/" ++
        natToLE 4 basechainAccount.address.wc.toNat ++
        basechainAccount.address.hash_part ++
        natToLE 4 overrideProof.domain_len.toNat ++
        utf8Bytes overrideProof.domain_val ++
        natToLE 8 overrideProof.timestamp.toNat ++
        utf8Bytes overrideProof.payload) :=
  ⟨(proof_message_payload_choice basechainAccount overrideProof
      (by decide) (by decide) (by decide) (by decide) (by decide) (by decide)).1
      "y" (by decide),
   (proof_message_payload_choice basechainAccount overrideProof
      (by decide) (by decide) (by decide) (by decide) (by decide) (by decide)).2.1⟩

/-! ## Lemmas about the item-scanning loop -/

/-- When every item carries a `"name"` key, the loop completes normally:
no exception, every item loses its `"name"` key, the account slot is
filled exactly when a `ton_addr`-named item occurred, and the proof slot
is untouched when no `ton_proof`-named item occurred. -/
theorem scanItems_complete (pA : Dict → Account) (pP : Dict → TonProof) :
    ∀ (items : List Dict) (acc : Option Account) (prf : Option TonProof),
    (∀ d ∈ items, lookupD "name" d ≠ none) →
    ∃ acc' prf',
      scanItems pA pP items acc prf =
        (.ok (acc', prf'), items.map (eraseD "name")) ∧
      (hasItemNamed "ton_addr" items = true → acc' ≠ none) ∧
      (hasItemNamed "ton_addr" items = false → acc' = acc) ∧
      (hasItemNamed "ton_proof" items = false → prf' = prf) := by
  intro items
  induction items with
  | nil =>
    intro acc prf _
    exact ⟨acc, prf, rfl, fun h => by simp [hasItemNamed] at h,
      fun _ => rfl, fun _ => rfl⟩
  | cons d rest ih =>
    intro acc prf hnames
    have hd := hnames d (List.mem_cons_self d rest)
    cases hlk : lookupD "name" d with
    | none => exact absurd hlk hd
    | some v =>
      obtain ⟨acc', prf', hEq, h1, h2, h3⟩ :=
        ih (if v = .vstr "ton_addr" then some (pA (eraseD "name" d)) else acc)
          (if v = .vstr "ton_proof" then some (pP (eraseD "name" d)) else prf)
          (fun d' hd' => hnames d' (List.mem_cons_of_mem _ hd'))
      refine ⟨acc', prf', ?_, ?_, ?_, ?_⟩
      · simp only [scanItems, hlk, hEq, List.map_cons]
      · intro htrue
        simp only [hasItemNamed, List.any_cons, Bool.or_eq_true, hlk,
          beq_iff_eq, Option.some.injEq] at htrue
        rcases htrue with hv | hrest
        · cases hrest2 : hasItemNamed "ton_addr" rest with
          | true => exact h1 hrest2
          | false =>
            rw [h2 hrest2, if_pos hv]
            exact fun hc => Option.noConfusion hc
        · exact h1 hrest
      · intro hfalse
        simp only [hasItemNamed, List.any_cons, Bool.or_eq_false_iff, hlk,
          beq_eq_false_iff_ne, ne_eq, Option.some.injEq] at hfalse
        rw [h2 hfalse.2, if_neg hfalse.1]
      · intro hfalse
        simp only [hasItemNamed, List.any_cons, Bool.or_eq_false_iff, hlk,
          beq_eq_false_iff_ne, ne_eq, Option.some.injEq] at hfalse
        rw [h3 hfalse.2, if_neg hfalse.1]

/-- When the loop does not abort with `KeyError`, its final state is the
items list with every `"name"` key popped. -/
theorem scanItems_state (pA : Dict → Account) (pP : Dict → TonProof) :
    ∀ (items : List Dict) (acc : Option Account) (prf : Option TonProof),
    (scanItems pA pP items acc prf).1 ≠ .error .keyError →
    (scanItems pA pP items acc prf).2 = items.map (eraseD "name") := by
  intro items
  induction items with
  | nil => intro acc prf _; rfl
  | cons d rest ih =>
    intro acc prf hnk
    cases hlk : lookupD "name" d with
    | none =>
      exfalso
      apply hnk
      simp only [scanItems, hlk]
    | some v =>
      have hnk' : (scanItems pA pP rest
          (if v = .vstr "ton_addr" then some (pA (eraseD "name" d)) else acc)
          (if v = .vstr "ton_proof" then some (pP (eraseD "name" d)) else prf)).1 ≠
          .error .keyError := by
        intro hc
        apply hnk
        simp only [scanItems, hlk, hc]
      have := ih (if v = .vstr "ton_addr" then some (pA (eraseD "name" d)) else acc)
        (if v = .vstr "ton_proof" then some (pP (eraseD "name" d)) else prf) hnk'
      simp only [scanItems, hlk, this, List.map_cons]

/-- A nameless item makes the loop abort with `KeyError`. -/
theorem scanItems_keyError (pA : Dict → Account) (pP : Dict → TonProof) :
    ∀ (items : List Dict) (acc : Option Account) (prf : Option TonProof),
    (∃ d ∈ items, lookupD "name" d = none) →
    (scanItems pA pP items acc prf).1 = .error .keyError := by
  intro items
  induction items with
  | nil => intro acc prf h; obtain ⟨d, hd, _⟩ := h; exact absurd hd (List.not_mem_nil d)
  | cons d rest ih =>
    intro acc prf h
    cases hlk : lookupD "name" d with
    | none => simp only [scanItems, hlk]
    | some v =>
      obtain ⟨d', hd', hlk'⟩ := h
      rcases List.mem_cons.1 hd' with rfl | hmem
      · exact absurd hlk (by rw [hlk']; exact fun hc => Option.noConfusion hc)
      · simp only [scanItems, hlk]
        exact ih _ _ ⟨d', hmem, hlk'⟩

/-- Unfolding of `from_payloadSt` on a non-empty items list. -/
theorem from_payloadSt_cons (pA : Dict → Account) (pP : Dict → TonProof)
    (pD : Dict → DeviceInfo) (d : Dict) (rest : List Dict) (dev : Option Dict) :
    from_payloadSt pA pP pD ⟨some (d :: rest), dev⟩ =
      (match (scanItems pA pP (d :: rest) none none).1 with
        | .error e => .error e
        | .ok (none, _) => .error (.tonConnect "ton_addr not contains in items")
        | .ok (some a, prf) =>
          .ok { device := match dev with
                  | none => none
                  | some dd => if dd = [] then none else some (pD dd),
                provider := "http", account := some a, ton_proof := prf },
       { items := some (scanItems pA pP (d :: rest) none none).2,
         device := dev }) := by
  simp only [from_payloadSt, if_neg (List.cons_ne_nil d rest)]
  cases h : (scanItems pA pP (d :: rest) none none).1 with
  | error e => rfl
  | ok pr =>
    obtain ⟨acc, prf⟩ := pr
    cases acc <;> rfl

/-! ## Claim C4 -/

/-- Claim C4 counterexample: for the payload `{"items": [{}]}` — a
non-empty items list with no item named `ton_addr`, but whose item lacks a
`"name"` key — `from_payload` raises a plain `KeyError` from the unguarded
`item.pop("name")` rather than the structured missing-address error, and
does not succeed either, contrary to the claim's case split. -/
theorem from_payload_nameless_breaks_assembly :
    (from_payloadSt (fun _ => basechainAccount) (fun _ => overrideProof)
      (fun d => ⟨d⟩) { items := some [[]], device := none }).1 = .error .keyError ∧
    (from_payloadSt (fun _ => basechainAccount) (fun _ => overrideProof)
      (fun d => ⟨d⟩) { items := some [[]], device := none }).1 ≠
      .error (.tonConnect "items not contains in payload") ∧
    (from_payloadSt (fun _ => basechainAccount) (fun _ => overrideProof)
      (fun d => ⟨d⟩) { items := some [[]], device := none }).1 ≠
      .error (.tonConnect "ton_addr not contains in items") ∧
    isOkE (from_payloadSt (fun _ => basechainAccount) (fun _ => overrideProof)
      (fun d => ⟨d⟩) { items := some [[]], device := none }).1 = false := by
  refine ⟨rfl, ?_, ?_, rfl⟩ <;> decide

/-- Claim C4 (amended: restricted to payloads whose items all carry a
`"name"` key, as the counterexample forces — a nameless item instead
raises `KeyError`, see C10): `from_payload` fails with the structured
`TonConnectError "items not contains in payload"` when `items` is absent
or empty, fails with the structured `TonConnectError "ton_addr not
contains in items"` when no item named `ton_addr` exists after scanning
all items, and otherwise succeeds; a payload with a `ton_addr` item but no
`ton_proof` item assembles with `ton_proof = none`; and the success or
failure of assembly never depends on the device metadata. -/
theorem from_payload_assembly (pA : Dict → Account) (pP : Dict → TonProof)
    (pD : Dict → DeviceInfo) (payload : Payload)
    (hnames : ∀ d ∈ payload.items.getD [], lookupD "name" d ≠ none) :
    ((payload.items = none ∨ payload.items = some []) →
      (from_payloadSt pA pP pD payload).1 =
        .error (.tonConnect "items not contains in payload")) ∧
    (∀ items, payload.items = some items → items ≠ [] →
      hasItemNamed "ton_addr" items = false →
      (from_payloadSt pA pP pD payload).1 =
        .error (.tonConnect "ton_addr not contains in items")) ∧
    (∀ items, payload.items = some items →
      hasItemNamed "ton_addr" items = true →
      ∃ w, (from_payloadSt pA pP pD payload).1 = .ok w ∧ w.account ≠ none ∧
        (hasItemNamed "ton_proof" items = false → w.ton_proof = none)) ∧
    (∀ dev, isOkE (from_payloadSt pA pP pD
        { items := payload.items, device := dev }).1 =
      isOkE (from_payloadSt pA pP pD payload).1) := by
  obtain ⟨its, dev⟩ := payload
  cases its with
  | none =>
    refine ⟨fun _ => rfl, ?_, ?_, fun dev' => rfl⟩ <;>
      · intro items hits
        exact absurd hits (fun hc => Option.noConfusion hc)
  | some items =>
    cases items with
    | nil =>
      refine ⟨fun _ => rfl, ?_, ?_, fun dev' => rfl⟩
      · intro items hits hne _
        exact absurd (Option.some.inj hits).symm hne
      · intro items hits htrue
        rw [← Option.some.inj hits] at htrue
        simp [hasItemNamed] at htrue
    | cons d rest =>
      obtain ⟨acc', prf', hEq, hT, hF, hP⟩ :=
        scanItems_complete pA pP (d :: rest) none none
          (by simpa using hnames)
      refine ⟨?_, ?_, ?_, ?_⟩
      · intro h
        rcases h with h | h <;> exact absurd h (by simp)
      · intro items hits hne hno
        have hi := Option.some.inj hits
        subst hi
        rw [from_payloadSt_cons, hEq]
        have : acc' = none := hF hno
        subst this
        rfl
      · intro items hits htrue
        have hi := Option.some.inj hits
        subst hi
        cases acc' with
        | none => exact absurd rfl (hT htrue)
        | some a =>
          refine ⟨{ device := match dev with
                      | none => none
                      | some dd => if dd = [] then none else some (pD dd),
                    provider := "http", account := some a, ton_proof := prf' },
            ?_, ?_, ?_⟩
          · rw [from_payloadSt_cons, hEq]
            cases dev <;> rfl
          · exact fun hc => Option.noConfusion hc
          · intro hfalse
            exact hP hfalse
      · intro dev'
        rw [from_payloadSt_cons, from_payloadSt_cons, hEq]
        cases acc' <;> rfl

/-- Claim C4 witness: a payload with a single `ton_addr` item and no
`ton_proof` item assembles successfully with an account and no proof. -/
theorem from_payload_assembly_witness :
    ∃ w, (from_payloadSt (fun _ => basechainAccount) (fun _ => overrideProof)
        (fun d => ⟨d⟩)
        { items := some [[("name", .vstr "ton_addr")]], device := none }).1 =
      .ok w ∧ w.account ≠ none ∧
      (hasItemNamed "ton_proof" [[("name", Val.vstr "ton_addr")]] = false →
        w.ton_proof = none) :=
  (from_payload_assembly (fun _ => basechainAccount) (fun _ => overrideProof)
    (fun d => ⟨d⟩) { items := some [[("name", .vstr "ton_addr")]], device := none }
    (by decide)).2.2.1 _ rfl (by decide)

/-! ## Claim C6 -/

/-- Claim C6 counterexample: `from_payload` does *not* leave its input
payload unchanged — `item.pop("name")` removes the `"name"` key from the
item dictionary inside the payload's items list. -/
theorem from_payload_mutates_items :
    (from_payloadSt (fun _ => basechainAccount) (fun _ => overrideProof)
      (fun d => ⟨d⟩)
      { items := some [[("name", .vstr "ton_addr")]], device := none }).2 ≠
      { items := some [[("name", Val.vstr "ton_addr")]], device := none } := by
  decide

/-- Claim C6 (amended as the counterexample forces): `verify_proof` is a
pure read of the `WalletInfo` (its embedding needs no state), but
`from_payload` mutates its input: unless it aborts with `KeyError`, it
pops the `"name"` key out of every dictionary in the items list, leaving
the device entry and everything else unchanged. -/
theorem from_payload_state (pA : Dict → Account) (pP : Dict → TonProof)
    (pD : Dict → DeviceInfo) (payload : Payload)
    (hnk : (from_payloadSt pA pP pD payload).1 ≠ .error .keyError) :
    (from_payloadSt pA pP pD payload).2 =
      { items := payload.items.map (fun its => its.map (eraseD "name")),
        device := payload.device } := by
  obtain ⟨its, dev⟩ := payload
  cases its with
  | none => rfl
  | some items =>
    cases items with
    | nil => rfl
    | cons d rest =>
      rw [from_payloadSt_cons] at hnk ⊢
      have hscan : (scanItems pA pP (d :: rest) none none).1 ≠
          .error .keyError := by
        intro hc
        rw [hc] at hnk
        exact hnk rfl
      simp only [scanItems_state pA pP (d :: rest) none none hscan]
      rfl

/-- Claim C6 witness: the state theorem applied to a one-item payload —
the scanned item loses exactly its `"name"` entry. -/
theorem from_payload_state_witness :
    (from_payloadSt (fun _ => basechainAccount) (fun _ => overrideProof)
      (fun d => ⟨d⟩)
      { items := some [[("name", .vstr "ton_addr"), ("k", .vint 5)]],
        device := some [("x", .vnone)] }).2 =
      { items := some [[("k", Val.vint 5)]],
        device := some [("x", Val.vnone)] } :=
  from_payload_state (fun _ => basechainAccount) (fun _ => overrideProof)
    (fun d => ⟨d⟩)
    { items := some [[("name", .vstr "ton_addr"), ("k", .vint 5)]],
      device := some [("x", .vnone)] } (by decide)

/-! ## Claim C10 -/

/-- Claim C10: an item without a `"name"` key makes `from_payload` raise a
plain `KeyError` (from the unguarded `item.pop("name")`), not the
structured session-assembly error — whatever the other items, including a
well-formed `ton_addr` item, contain. -/
theorem from_payload_keyerror_on_nameless (pA : Dict → Account)
    (pP : Dict → TonProof) (pD : Dict → DeviceInfo) (payload : Payload)
    (items : List Dict) (hits : payload.items = some items)
    (hex : ∃ d ∈ items, lookupD "name" d = none) :
    (from_payloadSt pA pP pD payload).1 = .error .keyError := by
  obtain ⟨itsp, dev⟩ := payload
  cases itsp with
  | none => exact absurd hits (fun hc => Option.noConfusion hc)
  | some its =>
    have hi : its = items := Option.some.inj hits
    rw [← hi] at hex
    cases its with
    | nil =>
      obtain ⟨d, hd, _⟩ := hex
      exact absurd hd (List.not_mem_nil d)
    | cons d rest =>
      rw [from_payloadSt_cons, scanItems_keyError pA pP (d :: rest) none none hex]

/-- Claim C10 witness: a payload holding a well-formed `ton_addr` item
followed by a nameless item still raises `KeyError`. -/
theorem from_payload_keyerror_on_nameless_witness :
    (from_payloadSt (fun _ => basechainAccount) (fun _ => overrideProof)
      (fun d => ⟨d⟩)
      { items := some [[("name", .vstr "ton_addr")], [("addr", .vstr "0:ab")]],
        device := none }).1 = .error .keyError :=
  from_payload_keyerror_on_nameless (fun _ => basechainAccount)
    (fun _ => overrideProof) (fun d => ⟨d⟩)
    { items := some [[("name", .vstr "ton_addr")], [("addr", .vstr "0:ab")]],
      device := none }
    [[("name", .vstr "ton_addr")], [("addr", .vstr "0:ab")]] rfl
    ⟨[("addr", .vstr "0:ab")], by decide, by decide⟩

/-! ## Claim C7 -/

/-- Claim C7: serialization is a lossless round trip,
`serialize (deserialize (serialize x)) = serialize x`, for every
`WalletApp` and (given sub-model serializers that invert, as the
specification asserts of the models not in the sources at hand) every
`WalletInfo`; and the external dictionary key `deepLink` is mapped to the
internal `deep_link` field on both the serialize and deserialize paths. -/
theorem serialize_roundtrip (dT : DeviceInfo → Dict) (dF : Dict → DeviceInfo)
    (aT : Account → Dict) (aF : Dict → Account)
    (pT : TonProof → Dict) (pF : Dict → TonProof)
    (hD : ∀ x, dF (dT x) = x) (hA : ∀ x, aF (aT x) = x)
    (hP : ∀ x, pF (pT x) = x) (a : WalletApp) (w : WalletInfo) :
    WalletApp.to_dict (WalletApp.from_dict (WalletApp.to_dict a)) =
      WalletApp.to_dict a ∧
    WalletInfo.to_dictP dT aT pT
        (WalletInfo.from_dictP dF aF pF (WalletInfo.to_dictP dT aT pT w)) =
      WalletInfo.to_dictP dT aT pT w ∧
    (WalletApp.from_dict (WalletApp.to_dict a)).deep_link =
      (WalletApp.to_dict a).deepLink ∧
    (WalletApp.to_dict a).deepLink = a.deep_link := by
  refine ⟨rfl, ?_, rfl, rfl⟩
  obtain ⟨dev, prov, acc, prf⟩ := w
  unfold WalletInfo.to_dictP WalletInfo.from_dictP
  cases dev <;> cases acc <;> cases prf <;> simp [hD, hA, hP]

/-- Claim C7 witness: the round trip at a populated catalog entry and a
populated session, with concrete invertible sub-model serializers. -/
theorem serialize_roundtrip_witness :
    WalletApp.to_dict (WalletApp.from_dict (WalletApp.to_dict sampleApp)) =
      WalletApp.to_dict sampleApp ∧
    WalletInfo.to_dictP devToDict accToDict proofToDict
        (WalletInfo.from_dictP devFromDict accFromDict proofFromDict
          (WalletInfo.to_dictP devToDict accToDict proofToDict sampleInfo)) =
      WalletInfo.to_dictP devToDict accToDict proofToDict sampleInfo ∧
    (WalletApp.from_dict (WalletApp.to_dict sampleApp)).deep_link =
      (WalletApp.to_dict sampleApp).deepLink ∧
    (WalletApp.to_dict sampleApp).deepLink = sampleApp.deep_link :=
  serialize_roundtrip devToDict devFromDict accToDict accFromDict
    proofToDict proofFromDict (fun _ => rfl)
    (fun x => by
      obtain ⟨⟨wc, hsh⟩, pk, ch⟩ := x
      cases pk <;> cases ch <;> rfl)
    (fun x => by obtain ⟨ts, dl, dv, pl, sg⟩ := x; rfl)
    sampleApp sampleInfo

/-! ## List utilities for the URL model -/

theorem containsB_iff (s : BStr) (c : Nat) : s.contains c = true ↔ c ∈ s := by
  simp [List.contains, List.elem_iff]

theorem containsB_false (s : BStr) (c : Nat) (h : c ∉ s) :
    s.contains c = false := by
  cases hc : s.contains c with
  | false => rfl
  | true => exact absurd ((containsB_iff s c).1 hc) h

theorem takeWhile_all {p : Nat → Bool} {a : BStr} (h : ∀ x ∈ a, p x = true) :
    a.takeWhile p = a := by
  induction a with
  | nil => rfl
  | cons x t ih =>
    rw [List.takeWhile_cons, h x (List.mem_cons_self x t)]
    exact congrArg (x :: ·) (ih (fun y hy => h y (List.mem_cons_of_mem x hy)))

theorem dropWhile_all {p : Nat → Bool} {a : BStr} (h : ∀ x ∈ a, p x = true) :
    a.dropWhile p = [] := by
  induction a with
  | nil => rfl
  | cons x t ih =>
    rw [List.dropWhile_cons, h x (List.mem_cons_self x t)]
    simp only [if_true]
    exact ih (fun y hy => h y (List.mem_cons_of_mem x hy))

theorem takeWhile_append_cons {p : Nat → Bool} {a : BStr} (c : Nat) (b : BStr)
    (ha : ∀ x ∈ a, p x = true) (hc : p c = false) :
    (a ++ c :: b).takeWhile p = a := by
  induction a with
  | nil => simp [List.takeWhile_cons, hc]
  | cons x t ih =>
    simp only [List.cons_append, List.takeWhile_cons,
      ha x (List.mem_cons_self x t), if_true]
    exact congrArg (x :: ·) (ih (fun y hy => ha y (List.mem_cons_of_mem x hy)))

theorem dropWhile_append_cons {p : Nat → Bool} {a : BStr} (c : Nat) (b : BStr)
    (ha : ∀ x ∈ a, p x = true) (hc : p c = false) :
    (a ++ c :: b).dropWhile p = c :: b := by
  induction a with
  | nil => simp [List.dropWhile_cons, hc]
  | cons x t ih =>
    simp only [List.cons_append, List.dropWhile_cons,
      ha x (List.mem_cons_self x t), if_true]
    exact ih (fun y hy => ha y (List.mem_cons_of_mem x hy))

theorem splitFirstB_of_not_mem {c : Nat} {s : BStr} (h : c ∉ s) :
    splitFirstB c s = (s, []) := by
  unfold splitFirstB
  rw [containsB_false s c h, if_neg (fun hc => Bool.noConfusion hc)]

theorem splitFirstB_append {c : Nat} {a : BStr} (b : BStr) (h : c ∉ a) :
    splitFirstB c (a ++ c :: b) = (a, b) := by
  unfold splitFirstB
  have hmem : (a ++ c :: b).contains c = true :=
    (containsB_iff _ c).2 (List.mem_append_right a (List.mem_cons_self c b))
  rw [hmem, if_pos rfl]
  have hall : ∀ x ∈ a, (x != c) = true := by
    intro x hx
    simp only [bne_iff_ne, ne_eq]
    exact fun hxc => h (hxc ▸ hx)
  have hcf : (c != c) = false := by simp
  rw [takeWhile_append_cons c b hall hcf, dropWhile_append_cons c b hall hcf]
  rfl

theorem tail_subset (s : BStr) : s.tail ⊆ s := by
  cases s with
  | nil => exact fun _ h => h
  | cons x t => exact fun y hy => List.mem_cons_of_mem x hy

theorem splitFirstB_fst_subset (c : Nat) (s : BStr) :
    (splitFirstB c s).1 ⊆ s := by
  unfold splitFirstB
  by_cases h : s.contains c = true
  · rw [if_pos h]; exact (List.takeWhile_prefix _).subset
  · rw [if_neg h]; exact fun _ hx => hx

theorem splitFirstB_snd_subset (c : Nat) (s : BStr) :
    (splitFirstB c s).2 ⊆ s := by
  unfold splitFirstB
  by_cases h : s.contains c = true
  · rw [if_pos h]
    exact fun y hy => (List.dropWhile_suffix _).subset (tail_subset _ hy)
  · rw [if_neg h]; exact fun _ hx => List.not_mem_nil _ hx |>.elim

theorem breakLastSlashB_join (u : BStr) :
    (breakLastSlashB u).1 ++ (breakLastSlashB u).2 = u := by
  unfold breakLastSlashB
  rw [← List.reverse_append, List.takeWhile_append_dropWhile, List.reverse_reverse]

theorem breakLastSlashB_fst_subset (u : BStr) : (breakLastSlashB u).1 ⊆ u := by
  intro x hx
  rw [← breakLastSlashB_join u]
  exact List.mem_append_left _ hx

theorem breakLastSlashB_snd_subset (u : BStr) : (breakLastSlashB u).2 ⊆ u := by
  intro x hx
  rw [← breakLastSlashB_join u]
  exact List.mem_append_right _ hx

theorem breakLastSlashB_snd_no_slash (u : BStr) :
    ∀ x ∈ (breakLastSlashB u).2, x ≠ 47 := by
  intro x hx
  unfold breakLastSlashB at hx
  simp only at hx
  have := List.mem_takeWhile_imp (List.mem_reverse.1 hx)
  simpa [bne_iff_ne] using this

theorem splitParamsB_fst_subset (u : BStr) : (splitParamsB u).1 ⊆ u := by
  unfold splitParamsB
  by_cases h47 : u.contains 47 = true
  · rw [if_pos h47]
    by_cases h59 : ((breakLastSlashB u).2).contains 59 = true
    · rw [if_pos h59]
      intro x hx
      simp only [List.mem_append] at hx
      rcases hx with hx | hx
      · exact breakLastSlashB_fst_subset u hx
      · exact breakLastSlashB_snd_subset u (splitFirstB_fst_subset _ _ hx)
    · rw [if_neg h59]; exact fun _ hx => hx
  · rw [if_neg h47]
    by_cases h59 : u.contains 59 = true
    · rw [if_pos h59]; exact splitFirstB_fst_subset _ _
    · rw [if_neg h59]; exact fun _ hx => hx

theorem splitParamsB_snd_subset (u : BStr) : (splitParamsB u).2 ⊆ u := by
  unfold splitParamsB
  by_cases h47 : u.contains 47 = true
  · rw [if_pos h47]
    by_cases h59 : ((breakLastSlashB u).2).contains 59 = true
    · rw [if_pos h59]
      exact fun x hx =>
        breakLastSlashB_snd_subset u (splitFirstB_snd_subset _ _ hx)
    · rw [if_neg h59]; exact fun _ hx => (List.not_mem_nil _ hx).elim
  · rw [if_neg h47]
    by_cases h59 : u.contains 59 = true
    · rw [if_pos h59]; exact splitFirstB_snd_subset _ _
    · rw [if_neg h59]; exact fun _ hx => (List.not_mem_nil _ hx).elim

/-! ## Quoting lemmas -/

set_option maxRecDepth 4000 in
theorem hexValB_hexDigitB :
    ∀ b, b < 256 →
      hexValB (hexDigitB (b / 16 % 16)) * 16 + hexValB (hexDigitB (b % 16)) = b := by
  decide

theorem hexValB_lt {b : Nat} (h : isHexB b = true) : hexValB b < 16 := by
  simp only [isHexB, Bool.or_eq_true, Bool.and_eq_true, decide_eq_true_eq] at h
  unfold hexValB
  split_ifs <;> omega

theorem isHexB_hexDigitB : ∀ n, n < 16 → isHexB (hexDigitB n) = true := by decide

theorem hexDigitB_range :
    ∀ n, n < 16 → (48 ≤ hexDigitB n ∧ hexDigitB n ≤ 57) ∨
      (65 ≤ hexDigitB n ∧ hexDigitB n ≤ 70) := by
  decide

theorem isSafeB_ranges {b : Nat} (h : isSafeB b = true) :
    (48 ≤ b ∧ b ≤ 57) ∨ (65 ≤ b ∧ b ≤ 90) ∨ (97 ≤ b ∧ b ≤ 122) ∨
      b = 95 ∨ b = 46 ∨ b = 45 ∨ b = 126 := by
  simp only [isSafeB, Bool.or_eq_true, Bool.and_eq_true, decide_eq_true_eq,
    beq_iff_eq] at h
  omega

theorem isSafeB_of_range {b : Nat}
    (h : (48 ≤ b ∧ b ≤ 57) ∨ (65 ≤ b ∧ b ≤ 90) ∨ (97 ≤ b ∧ b ≤ 122)) :
    isSafeB b = true := by
  simp only [isSafeB, Bool.or_eq_true, Bool.and_eq_true, decide_eq_true_eq,
    beq_iff_eq]
  omega

theorem quoteByteB_good (b : Nat) :
    ∀ x ∈ quoteByteB b, isSafeB x = true ∨ x = 43 ∨ x = 37 := by
  unfold quoteByteB
  by_cases hs : isSafeB b = true
  · rw [if_pos hs]
    intro x hx
    rw [List.mem_singleton] at hx
    exact Or.inl (hx ▸ hs)
  · rw [if_neg hs]
    by_cases h32 : b = 32
    · rw [if_pos h32]
      intro x hx
      rw [List.mem_singleton] at hx
      exact Or.inr (Or.inl hx)
    · rw [if_neg h32]
      intro x hx
      rcases hx with _ | ⟨_, hx⟩
      · exact Or.inr (Or.inr rfl)
      rcases hx with _ | ⟨_, hx⟩
      · exact Or.inl (isSafeB_of_range (by
          rcases hexDigitB_range (b / 16 % 16) (by omega) with h | h <;> omega))
      rcases hx with _ | ⟨_, hx⟩
      · exact Or.inl (isSafeB_of_range (by
          rcases hexDigitB_range (b % 16) (by omega) with h | h <;> omega))
      · exact absurd hx (List.not_mem_nil x)

theorem quotePlusB_cons (b : Nat) (t : BStr) :
    quotePlusB (b :: t) = quoteByteB b ++ quotePlusB t := by
  simp [quotePlusB]

theorem quotePlusB_good (s : BStr) :
    ∀ x ∈ quotePlusB s, isSafeB x = true ∨ x = 43 ∨ x = 37 := by
  induction s with
  | nil => intro x hx; exact absurd hx (List.not_mem_nil x)
  | cons b t ih =>
    rw [quotePlusB_cons]
    intro x hx
    rcases List.mem_append.1 hx with hx | hx
    · exact quoteByteB_good b x hx
    · exact ih x hx

/-- Every byte emitted by `quote_plus` is a safe byte, `+` or `%`; in
particular it is none of the URL delimiters and is printable. -/
theorem quotePlusB_facts (s : BStr) :
    ∀ x ∈ quotePlusB s, x ≠ 38 ∧ x ≠ 61 ∧ x ≠ 63 ∧ x ≠ 35 ∧ x ≠ 58 ∧
      x ≠ 47 ∧ x ≠ 59 ∧ ¬(x = 9 ∨ x = 10 ∨ x = 13) ∧ 32 < x := by
  intro x hx
  rcases quotePlusB_good s x hx with h | h | h
  · have := isSafeB_ranges h
    omega
  · omega
  · omega

theorem quoteByteB_ne_nil (b : Nat) : quoteByteB b ≠ [] := by
  unfold quoteByteB
  by_cases hs : isSafeB b = true
  · rw [if_pos hs]; exact fun h => List.noConfusion h
  · rw [if_neg hs]
    by_cases h32 : b = 32
    · rw [if_pos h32]; exact fun h => List.noConfusion h
    · rw [if_neg h32]; exact fun h => List.noConfusion h

theorem quotePlusB_eq_nil_iff (s : BStr) : quotePlusB s = [] ↔ s = [] := by
  cases s with
  | nil => simp [quotePlusB]
  | cons b t =>
    rw [quotePlusB_cons]
    simp only [List.append_eq_nil]
    exact ⟨fun h => absurd h.1 (quoteByteB_ne_nil b),
      fun h => List.noConfusion h⟩

theorem unquoteB_cons_ne {b : Nat} (l : BStr) (hb : b ≠ 37) :
    unquoteB (b :: l) = b :: unquoteB l := by
  rw [unquoteB.eq_def]
  simp [hb]

theorem unquoteB_escape (h1 h2 : Nat) (l : BStr) (hh1 : isHexB h1 = true)
    (hh2 : isHexB h2 = true) :
    unquoteB (37 :: h1 :: h2 :: l) =
      (hexValB h1 * 16 + hexValB h2) :: unquoteB l := by
  rw [unquoteB.eq_def]
  simp [hh1, hh2]

/-- Decoding inverts quoting, byte for byte, on byte strings. -/
theorem unquote_quotePlus (s : BStr) (h : ∀ b ∈ s, b < 256) :
    unquoteB ((quotePlusB s).map (fun b => if b = 43 then 32 else b)) = s := by
  induction s with
  | nil => rw [show ((quotePlusB []).map (fun b => if b = 43 then 32 else b)) =
      ([] : BStr) from rfl, unquoteB.eq_def]
  | cons b t ih =>
    have hb := h b (List.mem_cons_self b t)
    have ih' := ih (fun y hy => h y (List.mem_cons_of_mem b hy))
    rw [quotePlusB_cons, List.map_append]
    unfold quoteByteB
    by_cases hs : isSafeB b = true
    · have hb43 : b ≠ 43 := by
        have := isSafeB_ranges hs; omega
      have hb37 : b ≠ 37 := by
        have := isSafeB_ranges hs; omega
      rw [if_pos hs]
      simp only [List.map_cons, List.map_nil, if_neg hb43, List.cons_append,
        List.nil_append]
      rw [unquoteB_cons_ne _ hb37, ih']
    · rw [if_neg hs]
      by_cases h32 : b = 32
      · rw [if_pos h32]
        rw [show ([43].map (fun b => if b = 43 then (32 : Nat) else b)) = [32]
          by norm_num]
        rw [List.singleton_append, unquoteB_cons_ne _ (by norm_num), ih', h32]
      · rw [if_neg h32]
        have hd1 := hexDigitB_range (b / 16 % 16) (by omega)
        have hd2 := hexDigitB_range (b % 16) (by omega)
        simp only [List.map_cons, List.map_nil,
          if_neg (by norm_num : (37 : Nat) ≠ 43),
          if_neg (show hexDigitB (b / 16 % 16) ≠ 43 by omega),
          if_neg (show hexDigitB (b % 16) ≠ 43 by omega),
          List.cons_append, List.nil_append]
        rw [unquoteB_escape _ _ _ (isHexB_hexDigitB _ (by omega))
          (isHexB_hexDigitB _ (by omega)), ih', hexValB_hexDigitB b hb]

theorem unquotePlusB_quotePlusB (s : BStr) (h : ∀ b ∈ s, b < 256) :
    unquotePlusB (quotePlusB s) = s :=
  unquote_quotePlus s h

/-- Decoded bytes stay below 256 when the input bytes do. -/
theorem unquoteB_lt :
    ∀ (s : BStr), (∀ b ∈ s, b < 256) → ∀ x ∈ unquoteB s, x < 256 := by
  intro s
  induction s using unquoteB.induct with
  | case1 =>
    intro _ x hx
    rw [show unquoteB [] = [] by rw [unquoteB.eq_def]] at hx
    exact absurd hx (List.not_mem_nil x)
  | case2 h1 h2 rest' hhex ih =>
    intro h x hx
    rw [Bool.and_eq_true] at hhex
    rw [unquoteB_escape h1 h2 rest' hhex.1 hhex.2] at hx
    rcases List.mem_cons.1 hx with rfl | hx
    · have := hexValB_lt hhex.1
      have := hexValB_lt hhex.2
      omega
    · exact ih (fun y hy => h y (List.mem_cons_of_mem _
        (List.mem_cons_of_mem _ (List.mem_cons_of_mem _ hy)))) x hx
  | case3 h1 h2 rest' hhex ih =>
    intro h x hx
    rw [show unquoteB (37 :: h1 :: h2 :: rest') =
        37 :: unquoteB (h1 :: h2 :: rest') by
      rw [unquoteB.eq_def]; simp [hhex]] at hx
    rcases List.mem_cons.1 hx with rfl | hx
    · omega
    · exact ih (fun y hy => h y (List.mem_cons_of_mem _ hy)) x hx
  | case4 =>
    intro _ x hx
    rw [show unquoteB [37] = [37] by rw [unquoteB.eq_def]; simp] at hx
    rcases List.mem_singleton.1 hx with rfl
    omega
  | case5 h1 =>
    intro h x hx
    rw [show unquoteB [37, h1] = [37, h1] by rw [unquoteB.eq_def]; simp] at hx
    rcases List.mem_cons.1 hx with rfl | hx
    · omega
    · rcases List.mem_singleton.1 hx with rfl
      exact h x (by simp)
  | case6 b rest hb ih =>
    intro h x hx
    rw [unquoteB_cons_ne rest hb] at hx
    rcases List.mem_cons.1 hx with rfl | hx
    · exact h x (List.mem_cons_self x rest)
    · exact ih (fun y hy => h y (List.mem_cons_of_mem b hy)) x hx

/-! ## Query-string round-trip lemmas -/

theorem splitSepB_ne_nil (sep : Nat) (s : BStr) : splitSepB sep s ≠ [] := by
  induction s with
  | nil => exact fun h => List.noConfusion h
  | cons b t ih =>
    show (match splitSepB sep t with
      | [] => [[]]
      | g :: gs => if b = sep then [] :: g :: gs else (b :: g) :: gs) ≠ []
    cases hm : splitSepB sep t with
    | nil => exact fun h => List.noConfusion h
    | cons g gs =>
      dsimp only
      by_cases hb : b = sep
      · rw [if_pos hb]; exact fun h => List.noConfusion h
      · rw [if_neg hb]; exact fun h => List.noConfusion h

theorem splitSepB_no_sep {sep : Nat} {s : BStr} (h : sep ∉ s) :
    splitSepB sep s = [s] := by
  induction s with
  | nil => rfl
  | cons b t ih =>
    show (match splitSepB sep t with
      | [] => [[]]
      | g :: gs => if b = sep then [] :: g :: gs else (b :: g) :: gs) = [b :: t]
    rw [ih (fun hc => h (List.mem_cons_of_mem b hc))]
    dsimp only
    rw [if_neg (fun hb => h (by rw [← hb] at *; exact List.mem_cons_self b t))]

theorem splitSepB_append_sep {sep : Nat} {f : BStr} (t : BStr) (hf : sep ∉ f) :
    splitSepB sep (f ++ sep :: t) = f :: splitSepB sep t := by
  induction f with
  | nil =>
    show (match splitSepB sep t with
      | [] => [[]]
      | g :: gs => if sep = sep then [] :: g :: gs else (sep :: g) :: gs) =
      [] :: splitSepB sep t
    cases hm : splitSepB sep t with
    | nil => exact absurd hm (splitSepB_ne_nil sep t)
    | cons g gs => dsimp only; rw [if_pos rfl, ← hm]
  | cons b fb ih =>
    show (match splitSepB sep (fb ++ sep :: t) with
      | [] => [[]]
      | g :: gs => if b = sep then [] :: g :: gs else (b :: g) :: gs) =
      (b :: fb) :: splitSepB sep t
    rw [ih (fun hc => hf (List.mem_cons_of_mem b hc))]
    dsimp only
    rw [if_neg (fun hb => hf (by rw [← hb] at *; exact List.mem_cons_self b fb))]

theorem splitSepB_parts_subset (sep : Nat) (s : BStr) :
    ∀ f ∈ splitSepB sep s, f ⊆ s := by
  induction s with
  | nil =>
    intro f hf
    rcases List.mem_singleton.1 hf with rfl
    exact fun _ h => h
  | cons b t ih =>
    intro f hf
    revert hf
    show f ∈ (match splitSepB sep t with
      | [] => [[]]
      | g :: gs => if b = sep then [] :: g :: gs else (b :: g) :: gs) → f ⊆ b :: t
    cases hm : splitSepB sep t with
    | nil => exact fun h => absurd hm (splitSepB_ne_nil sep t)
    | cons g gs =>
      dsimp only
      by_cases hb : b = sep
      · rw [if_pos hb]
        intro hf
        rcases List.mem_cons.1 hf with rfl | hf
        · exact fun x hx => absurd hx (List.not_mem_nil x)
        · intro x hx
          exact List.mem_cons_of_mem b (ih f (hm ▸ hf) hx)
      · rw [if_neg hb]
        intro hf
        rcases List.mem_cons.1 hf with rfl | hf
        · intro x hx
          rcases List.mem_cons.1 hx with rfl | hx
          · exact List.mem_cons_self x t
          · exact List.mem_cons_of_mem b (ih g (hm ▸ List.mem_cons_self g gs) hx)
        · intro x hx
          exact List.mem_cons_of_mem b
            (ih f (hm ▸ List.mem_cons_of_mem g hf) hx)

theorem joinSepB_split {sep : Nat} :
    ∀ (F : List BStr), F ≠ [] → (∀ f ∈ F, sep ∉ f) →
    splitSepB sep (joinSepB sep F) = F := by
  intro F
  induction F with
  | nil => exact fun h _ => absurd rfl h
  | cons f G ih =>
    intro _ hfree
    cases G with
    | nil =>
      exact splitSepB_no_sep (hfree f (List.mem_cons_self f []))
    | cons g rest =>
      show splitSepB sep (f ++ sep :: joinSepB sep (g :: rest)) = f :: g :: rest
      rw [splitSepB_append_sep _ (hfree f (List.mem_cons_self f _))]
      rw [ih (fun h => List.noConfusion h)
        (fun x hx => hfree x (List.mem_cons_of_mem f hx))]

theorem unquoteB_ne_nil (b : Nat) (rest : BStr) : unquoteB (b :: rest) ≠ [] := by
  rw [unquoteB.eq_def]
  rcases rest with _ | ⟨h1, _ | ⟨h2, r⟩⟩ <;> dsimp only <;> split_ifs <;> simp

theorem unquotePlusB_ne_nil {s : BStr} (h : s ≠ []) : unquotePlusB s ≠ [] := by
  cases s with
  | nil => exact absurd rfl h
  | cons b t => exact unquoteB_ne_nil _ _

theorem unquotePlusB_lt {s : BStr} (h : ∀ b ∈ s, b < 256) :
    ∀ x ∈ unquotePlusB s, x < 256 := by
  unfold unquotePlusB
  apply unquoteB_lt
  intro b hb
  rcases List.mem_map.1 hb with ⟨y, hy, hxy⟩
  subst hxy
  split_ifs with hy43
  · omega
  · exact h y hy

theorem qslField_render (k v : BStr) (hk : ∀ b ∈ k, b < 256)
    (hv : ∀ b ∈ v, b < 256) (hvne : v ≠ []) :
    qslField (quotePlusB k ++ 61 :: quotePlusB v) = some (k, v) := by
  unfold qslField
  have h61k : (61 : Nat) ∉ quotePlusB k :=
    fun hm => (quotePlusB_facts k 61 hm).2.1 rfl
  have hsplit := splitFirstB_append (c := 61) (a := quotePlusB k)
    (quotePlusB v) h61k
  rw [if_neg (by simp), if_pos (by
    refine (containsB_iff _ 61).2 ?_
    exact List.mem_append_right _ (List.mem_cons_self 61 _))]
  rw [hsplit]
  rw [if_neg (fun hc => hvne ((quotePlusB_eq_nil_iff v).1 hc))]
  rw [unquotePlusB_quotePlusB k hk, unquotePlusB_quotePlusB v hv]

theorem filterMap_qslField_fields (k : BStr) (vs : List BStr)
    (hk : ∀ b ∈ k, b < 256)
    (hvs : ∀ v ∈ vs, (∀ b ∈ v, b < 256) ∧ v ≠ []) :
    (vs.map (fun v => quotePlusB k ++ 61 :: quotePlusB v)).filterMap qslField =
      vs.map (fun v => (k, v)) := by
  induction vs with
  | nil => rfl
  | cons v vt ih =>
    simp only [List.map_cons, List.filterMap_cons]
    rw [qslField_render k v hk (hvs v (List.mem_cons_self v vt)).1
      (hvs v (List.mem_cons_self v vt)).2]
    rw [ih (fun w hw => hvs w (List.mem_cons_of_mem v hw))]

theorem parseQslB_urlencodeB (d : List (BStr × List BStr)) (hd : QDictInv d) :
    parseQslB (urlencodeB d) = pairsOf d := by
  by_cases hdnil : d = []
  · subst hdnil; rfl
  · unfold parseQslB urlencodeB
    have hFne : ((d.map (fun kv =>
        kv.2.map (fun v => quotePlusB kv.1 ++ 61 :: quotePlusB v))).flatten) ≠ [] := by
      cases d with
      | nil => exact absurd rfl hdnil
      | cons kv d' =>
        cases hv : kv.2 with
        | nil => exact absurd hv (hd.vals_ne kv (List.mem_cons_self kv d'))
        | cons v vt =>
          simp only [List.map_cons, hv, List.flatten_cons, List.cons_append]
          exact fun h => List.noConfusion h
    have hFfree : ∀ f ∈ (d.map (fun kv =>
        kv.2.map (fun v => quotePlusB kv.1 ++ 61 :: quotePlusB v))).flatten,
        (38 : Nat) ∉ f := by
      intro f hf
      rcases List.mem_flatten.1 hf with ⟨l, hl, hfl⟩
      rcases List.mem_map.1 hl with ⟨kv, _, hkv⟩
      subst hkv
      rcases List.mem_map.1 hfl with ⟨v, _, hv⟩
      subst hv
      intro hmem
      rcases List.mem_append.1 hmem with hmem | hmem
      · exact (quotePlusB_facts _ 38 hmem).1 rfl
      · rcases List.mem_cons.1 hmem with h61 | hmem
        · exact absurd h61 (by norm_num)
        · exact (quotePlusB_facts _ 38 hmem).1 rfl
    rw [joinSepB_split _ hFne hFfree]
    rw [List.filterMap_flatten, List.map_map]
    unfold pairsOf
    congr 1
    apply List.map_congr_left
    intro kv hkv
    exact filterMap_qslField_fields kv.1 kv.2
      (hd.bytes_lt kv hkv).1
      (fun v hv => ⟨(hd.bytes_lt kv hkv).2 v hv, hd.val_ne kv hkv v hv⟩)

theorem qsInsert_new {k : BStr} (v : BStr) {acc : List (BStr × List BStr)}
    (h : k ∉ acc.map Prod.fst) :
    qsInsert k v acc = acc ++ [(k, [v])] := by
  induction acc with
  | nil => rfl
  | cons kv acc' ih =>
    obtain ⟨k', vs⟩ := kv
    simp only [List.map_cons, List.mem_cons, not_or] at h
    show (if k' = k then (k', vs ++ [v]) :: acc' else (k', vs) :: qsInsert k v acc') = _
    rw [if_neg (fun hc => h.1 hc.symm), ih h.2]
    rfl

theorem qsInsert_last {k : BStr} (v : BStr) (vs : List BStr)
    {acc : List (BStr × List BStr)} (h : k ∉ acc.map Prod.fst) :
    qsInsert k v (acc ++ [(k, vs)]) = acc ++ [(k, vs ++ [v])] := by
  induction acc with
  | nil =>
    show (if k = k then _ else _) = _
    rw [if_pos rfl]
    rfl
  | cons kv acc' ih =>
    obtain ⟨k', vs'⟩ := kv
    simp only [List.map_cons, List.mem_cons, not_or] at h
    show (if k' = k then _ else (k', vs') :: qsInsert k v (acc' ++ [(k, vs)])) = _
    rw [if_neg (fun hc => h.1 hc.symm), ih h.2]
    rfl

theorem pairsOf_cons (k : BStr) (vs : List BStr)
    (d' : List (BStr × List BStr)) :
    pairsOf ((k, vs) :: d') = vs.map (fun v => (k, v)) ++ pairsOf d' := by
  simp [pairsOf]

theorem foldl_qsInsert_same_key (k : BStr) (tail : List BStr) :
    ∀ (vs : List BStr) (acc : List (BStr × List BStr)),
    k ∉ acc.map Prod.fst →
    List.foldl (fun a kv => qsInsert kv.1 kv.2 a) (acc ++ [(k, vs)])
      (tail.map (fun v => (k, v))) = acc ++ [(k, vs ++ tail)] := by
  induction tail with
  | nil => intro vs acc _; simp
  | cons v t ih =>
    intro vs acc hk
    simp only [List.map_cons, List.foldl_cons]
    rw [qsInsert_last v vs hk, ih (vs ++ [v]) acc hk, List.append_assoc]
    rfl

theorem foldl_qsInsert_pairs :
    ∀ (d : List (BStr × List BStr)) (acc : List (BStr × List BStr)),
    (d.map Prod.fst).Nodup →
    (∀ kv ∈ d, kv.2 ≠ []) →
    (∀ x ∈ d.map Prod.fst, x ∉ acc.map Prod.fst) →
    List.foldl (fun a kv => qsInsert kv.1 kv.2 a) acc (pairsOf d) = acc ++ d := by
  intro d
  induction d with
  | nil => intro acc _ _ _; simp [pairsOf]
  | cons kv d' ih =>
    intro acc hnd hne hdisj
    obtain ⟨k, vs⟩ := kv
    simp only [List.map_cons, List.nodup_cons] at hnd
    obtain ⟨hk_not, hnd'⟩ := hnd
    cases vs with
    | nil => exact absurd rfl (hne (k, []) (List.mem_cons_self _ _))
    | cons v vt =>
      rw [pairsOf_cons, List.foldl_append]
      simp only [List.map_cons, List.foldl_cons]
      have hkacc : k ∉ acc.map Prod.fst := by
        apply hdisj k
        simp
      rw [qsInsert_new v hkacc]
      rw [foldl_qsInsert_same_key k vt [v] acc hkacc]
      have hrec := ih (acc ++ [(k, [v] ++ vt)]) hnd'
        (fun kw hkw => hne kw (List.mem_cons_of_mem _ hkw))
        (by
          intro x hx
          rw [List.map_append, List.mem_append, not_or]
          constructor
          · exact hdisj x (by simp only [List.map_cons]
                              exact List.mem_cons_of_mem _ hx)
          · intro hmem
            rcases List.mem_singleton.1 hmem with rfl
            exact hk_not hx)
      rw [hrec, List.append_assoc]
      rfl

/-- The `parse_qs`/`urlencode` round trip on well-formed dictionaries. -/
theorem parseQsB_urlencodeB (d : List (BStr × List BStr)) (hd : QDictInv d) :
    parseQsB (urlencodeB d) = d := by
  unfold parseQsB
  rw [parseQslB_urlencodeB d hd]
  have := foldl_qsInsert_pairs d [] hd.keys_nodup hd.vals_ne
    (by intro x _ hx; exact absurd hx (List.not_mem_nil x))
  simpa using this

theorem qsInsert_keys (k : BStr) (v : BStr) (acc : List (BStr × List BStr)) :
    (qsInsert k v acc).map Prod.fst =
      if k ∈ acc.map Prod.fst then acc.map Prod.fst
      else acc.map Prod.fst ++ [k] := by
  induction acc with
  | nil => simp [qsInsert]
  | cons kv acc' ih =>
    obtain ⟨k', vs⟩ := kv
    show (if k' = k then (k', vs ++ [v]) :: acc'
      else (k', vs) :: qsInsert k v acc').map Prod.fst = _
    by_cases hk : k' = k
    · subst hk
      rw [if_pos rfl, if_pos (by simp)]
      simp
    · rw [if_neg hk]
      simp only [List.map_cons, ih]
      by_cases hmem : k ∈ acc'.map Prod.fst
      · rw [if_pos hmem, if_pos (by simp [hmem])]
      · rw [if_neg hmem, if_neg (by
          simp only [List.map_cons, List.mem_cons, not_or]
          exact ⟨fun hc => hk hc.symm, hmem⟩)]
        rfl

theorem foldl_qsInsert_nodup :
    ∀ (l : List (BStr × BStr)) (acc : List (BStr × List BStr)),
    (acc.map Prod.fst).Nodup →
    ((List.foldl (fun a kv => qsInsert kv.1 kv.2 a) acc l).map Prod.fst).Nodup := by
  intro l
  induction l with
  | nil => intro acc h; exact h
  | cons p t ih =>
    intro acc h
    rw [List.foldl_cons]
    apply ih
    rw [qsInsert_keys]
    by_cases hmem : p.1 ∈ acc.map Prod.fst
    · rw [if_pos hmem]; exact h
    · rw [if_neg hmem]
      rw [List.nodup_append]
      refine ⟨h, List.nodup_singleton _, ?_⟩
      intro x hx hxe
      rcases List.mem_singleton.1 hxe with rfl
      exact hmem hx

theorem qsInsert_mem_src {k v : BStr} {acc : List (BStr × List BStr)} :
    ∀ kv ∈ qsInsert k v acc, (kv.1 = k ∨ ∃ kv' ∈ acc, kv.1 = kv'.1) ∧
      ∀ w ∈ kv.2, w = v ∨ ∃ kv' ∈ acc, w ∈ kv'.2 := by
  induction acc with
  | nil =>
    intro kv hkv
    rcases List.mem_singleton.1 hkv with rfl
    exact ⟨Or.inl rfl, fun w hw => Or.inl (List.mem_singleton.1 hw)⟩
  | cons kv' acc' ih =>
    obtain ⟨k', vs⟩ := kv'
    intro kv hkv
    revert hkv
    show kv ∈ (if k' = k then (k', vs ++ [v]) :: acc'
      else (k', vs) :: qsInsert k v acc') → _
    by_cases hk : k' = k
    · rw [if_pos hk]
      intro hkv
      rcases List.mem_cons.1 hkv with rfl | hkv
      · refine ⟨Or.inr ⟨(k', vs), List.mem_cons_self _ _, rfl⟩, ?_⟩
        intro w hw
        rcases List.mem_append.1 hw with hw | hw
        · exact Or.inr ⟨(k', vs), List.mem_cons_self _ _, hw⟩
        · exact Or.inl (List.mem_singleton.1 hw)
      · exact ⟨Or.inr ⟨kv, List.mem_cons_of_mem _ hkv, rfl⟩,
          fun w hw => Or.inr ⟨kv, List.mem_cons_of_mem _ hkv, hw⟩⟩
    · rw [if_neg hk]
      intro hkv
      rcases List.mem_cons.1 hkv with rfl | hkv
      · exact ⟨Or.inr ⟨(k', vs), List.mem_cons_self _ _, rfl⟩,
          fun w hw => Or.inr ⟨(k', vs), List.mem_cons_self _ _, hw⟩⟩
      · rcases ih kv hkv with ⟨h1, h2⟩
        refine ⟨?_, ?_⟩
        · rcases h1 with h1 | ⟨kv'', hkv'', he⟩
          · exact Or.inl h1
          · exact Or.inr ⟨kv'', List.mem_cons_of_mem _ hkv'', he⟩
        · intro w hw
          rcases h2 w hw with h | ⟨kv'', hkv'', hwm⟩
          · exact Or.inl h
          · exact Or.inr ⟨kv'', List.mem_cons_of_mem _ hkv'', hwm⟩

theorem qsInsert_vals_ne {k v : BStr} {acc : List (BStr × List BStr)}
    (h : ∀ kv ∈ acc, kv.2 ≠ []) : ∀ kv ∈ qsInsert k v acc, kv.2 ≠ [] := by
  induction acc with
  | nil =>
    intro kv hkv
    rcases List.mem_singleton.1 hkv with rfl
    exact fun hc => List.noConfusion hc
  | cons kv' acc' ih =>
    obtain ⟨k', vs⟩ := kv'
    intro kv hkv
    revert hkv
    show kv ∈ (if k' = k then (k', vs ++ [v]) :: acc'
      else (k', vs) :: qsInsert k v acc') → _
    by_cases hk : k' = k
    · rw [if_pos hk]
      intro hkv
      rcases List.mem_cons.1 hkv with rfl | hkv
      · simp
      · exact h kv (List.mem_cons_of_mem _ hkv)
    · rw [if_neg hk]
      intro hkv
      rcases List.mem_cons.1 hkv with rfl | hkv
      · exact h (k', vs) (List.mem_cons_self _ _)
      · exact ih (fun kw hkw => h kw (List.mem_cons_of_mem _ hkw)) kv hkv

theorem foldl_qsInsert_src :
    ∀ (l : List (BStr × BStr)) (acc : List (BStr × List BStr)),
    ∀ kv ∈ List.foldl (fun a kv => qsInsert kv.1 kv.2 a) acc l,
      (kv.1 ∈ l.map Prod.fst ∨ ∃ kv' ∈ acc, kv.1 = kv'.1) ∧
      ∀ w ∈ kv.2, (∃ p ∈ l, w = p.2) ∨ ∃ kv' ∈ acc, w ∈ kv'.2 := by
  intro l
  induction l with
  | nil =>
    intro acc kv hkv
    exact ⟨Or.inr ⟨kv, hkv, rfl⟩, fun w hw => Or.inr ⟨kv, hkv, hw⟩⟩
  | cons p t ih =>
    intro acc kv hkv
    rw [List.foldl_cons] at hkv
    rcases ih (qsInsert p.1 p.2 acc) kv hkv with ⟨h1, h2⟩
    constructor
    · rcases h1 with h1 | ⟨kv', hkv', he⟩
      · exact Or.inl (List.mem_cons_of_mem _ h1)
      · rcases (qsInsert_mem_src kv' hkv').1 with hk | ⟨kv'', hkv'', he'⟩
        · exact Or.inl (by rw [he, hk]; simp)
        · exact Or.inr ⟨kv'', hkv'', he.trans he'⟩
    · intro w hw
      rcases h2 w hw with h | ⟨kv', hkv', hwm⟩
      · rcases h with ⟨q, hq, he⟩
        exact Or.inl ⟨q, List.mem_cons_of_mem _ hq, he⟩
      · rcases (qsInsert_mem_src kv' hkv').2 w hwm with h | ⟨kv'', hkv'', hwm'⟩
        · exact Or.inl ⟨p, List.mem_cons_self _ _, h⟩
        · exact Or.inr ⟨kv'', hkv'', hwm'⟩

theorem foldl_qsInsert_vals_ne :
    ∀ (l : List (BStr × BStr)) (acc : List (BStr × List BStr)),
    (∀ kv ∈ acc, kv.2 ≠ []) →
    ∀ kv ∈ List.foldl (fun a kv => qsInsert kv.1 kv.2 a) acc l, kv.2 ≠ [] := by
  intro l
  induction l with
  | nil => intro acc h; exact h
  | cons p t ih =>
    intro acc h
    rw [List.foldl_cons]
    exact ih _ (qsInsert_vals_ne h)

theorem parseQslB_props (q : BStr) (hq : ∀ b ∈ q, b < 256) :
    ∀ p ∈ parseQslB q,
      (∀ b ∈ p.1, b < 256) ∧ (∀ b ∈ p.2, b < 256) ∧ p.2 ≠ [] := by
  intro p hp
  rcases List.mem_filterMap.1 hp with ⟨field, hfield, hqsl⟩
  have hfq : field ⊆ q := splitSepB_parts_subset 38 q field hfield
  unfold qslField at hqsl
  by_cases h1 : field = []
  · rw [if_pos h1] at hqsl
    exact absurd hqsl (fun hc => Option.noConfusion hc)
  rw [if_neg h1] at hqsl
  by_cases h2 : field.contains 61 = true
  · rw [if_pos h2] at hqsl
    by_cases h3 : (splitFirstB 61 field).2 = []
    · rw [if_pos h3] at hqsl
      exact absurd hqsl (fun hc => Option.noConfusion hc)
    · rw [if_neg h3] at hqsl
      rcases Option.some.inj hqsl with rfl
      refine ⟨?_, ?_, ?_⟩
      · exact unquotePlusB_lt
          (fun b hb => hq b (hfq (splitFirstB_fst_subset 61 field hb)))
      · exact unquotePlusB_lt
          (fun b hb => hq b (hfq (splitFirstB_snd_subset 61 field hb)))
      · exact unquotePlusB_ne_nil h3
  · rw [if_neg h2] at hqsl
    exact absurd hqsl (fun hc => Option.noConfusion hc)

/-- The `parse_qs` of any byte-string query is a well-formed dictionary. -/
theorem parseQsB_inv (q : BStr) (hq : ∀ b ∈ q, b < 256) :
    QDictInv (parseQsB q) := by
  unfold parseQsB
  have hprops := parseQslB_props q hq
  refine ⟨?_, ?_, ?_, ?_⟩
  · exact foldl_qsInsert_nodup _ [] List.nodup_nil
  · exact foldl_qsInsert_vals_ne _ []
      (fun kv hkv => absurd hkv (List.not_mem_nil kv))
  · intro kv hkv w hw
    rcases (foldl_qsInsert_src _ [] kv hkv).2 w hw with ⟨pp, hpp, he⟩ |
      ⟨kv', hkv', _⟩
    · rw [he]
      exact (hprops pp hpp).2.2
    · exact absurd hkv' (List.not_mem_nil kv')
  · intro kv hkv
    constructor
    · rcases (foldl_qsInsert_src _ [] kv hkv).1 with hk | ⟨kv', hkv', _⟩
      · rcases List.mem_map.1 hk with ⟨pp, hpp, he⟩
        rw [← he]
        exact (hprops pp hpp).1
      · exact absurd hkv' (List.not_mem_nil kv')
    · intro v hv b hb
      rcases (foldl_qsInsert_src _ [] kv hkv).2 v hv with ⟨pp, hpp, he⟩ |
        ⟨kv', hkv', _⟩
      · rw [he] at hb
        exact (hprops pp hpp).2.1 b hb
      · exact absurd hkv' (List.not_mem_nil kv')

theorem eraseQ_subset (k : BStr) (d : List (BStr × List BStr)) :
    ∀ kv ∈ eraseQ k d, kv ∈ d := by
  induction d with
  | nil => intro kv hkv; exact hkv
  | cons kv' d' ih =>
    obtain ⟨k', vs⟩ := kv'
    intro kv
    show kv ∈ (if k' = k then d' else (k', vs) :: eraseQ k d') → _
    by_cases hk : k' = k
    · rw [if_pos hk]
      exact fun hkv => List.mem_cons_of_mem _ hkv
    · rw [if_neg hk]
      intro hkv
      rcases List.mem_cons.1 hkv with rfl | hkv
      · exact List.mem_cons_self _ _
      · exact List.mem_cons_of_mem _ (ih kv hkv)

theorem eraseQ_keys_sublist (k : BStr) (d : List (BStr × List BStr)) :
    ((eraseQ k d).map Prod.fst).Sublist (d.map Prod.fst) := by
  induction d with
  | nil => exact List.Sublist.refl _
  | cons kv' d' ih =>
    obtain ⟨k', vs⟩ := kv'
    show (List.map Prod.fst (if k' = k then d' else (k', vs) :: eraseQ k d')).Sublist _
    by_cases hk : k' = k
    · rw [if_pos hk]
      exact List.Sublist.cons _ (List.Sublist.refl _)
    · rw [if_neg hk]
      simp only [List.map_cons]
      exact List.Sublist.cons₂ _ ih

/-- Removing a key from a well-formed dictionary keeps it well-formed. -/
theorem eraseQ_inv {k : BStr} {d : List (BStr × List BStr)}
    (hd : QDictInv d) : QDictInv (eraseQ k d) :=
  ⟨(eraseQ_keys_sublist k d).nodup hd.keys_nodup,
   fun kv hkv => hd.vals_ne kv (eraseQ_subset k d kv hkv),
   fun kv hkv => hd.val_ne kv (eraseQ_subset k d kv hkv),
   fun kv hkv => hd.bytes_lt kv (eraseQ_subset k d kv hkv)⟩

theorem lookupQ_none_of_not_mem {k : BStr} {d : List (BStr × List BStr)}
    (h : k ∉ d.map Prod.fst) : lookupQ k d = none := by
  induction d with
  | nil => rfl
  | cons kv' d' ih =>
    obtain ⟨k', vs⟩ := kv'
    simp only [List.map_cons, List.mem_cons, not_or] at h
    show (if k' = k then some vs else lookupQ k d') = none
    rw [if_neg (fun hc => h.1 hc.symm)]
    exact ih h.2

/-- Popping a key from a duplicate-free dictionary removes it entirely. -/
theorem lookupQ_eraseQ_self {k : BStr} {d : List (BStr × List BStr)}
    (hnd : (d.map Prod.fst).Nodup) : lookupQ k (eraseQ k d) = none := by
  induction d with
  | nil => rfl
  | cons kv' d' ih =>
    obtain ⟨k', vs⟩ := kv'
    simp only [List.map_cons, List.nodup_cons] at hnd
    show lookupQ k (if k' = k then d' else (k', vs) :: eraseQ k d') = none
    by_cases hk : k' = k
    · rw [if_pos hk]
      exact lookupQ_none_of_not_mem (hk ▸ hnd.1)
    · rw [if_neg hk]
      show (if k' = k then some vs else lookupQ k (eraseQ k d')) = none
      rw [if_neg hk]
      exact ih hnd.2

/-! ### Reparse infrastructure: list utilities -/

theorem takeWhile_append_all {p : Nat → Bool} {a : BStr} (b : BStr)
    (ha : ∀ x ∈ a, p x = true) :
    (a ++ b).takeWhile p = a ++ b.takeWhile p := by
  induction a with
  | nil => rfl
  | cons x t ih =>
    have hx := ha x (List.mem_cons_self x t)
    simp [List.cons_append, List.takeWhile_cons, hx,
      ih (fun y hy => ha y (List.mem_cons_of_mem x hy))]

theorem dropWhile_append_all {p : Nat → Bool} {a : BStr} (b : BStr)
    (ha : ∀ x ∈ a, p x = true) :
    (a ++ b).dropWhile p = b.dropWhile p := by
  induction a with
  | nil => rfl
  | cons x t ih =>
    have hx := ha x (List.mem_cons_self x t)
    simp only [List.cons_append, List.dropWhile_cons, hx]
    exact ih (fun y hy => ha y (List.mem_cons_of_mem x hy))

theorem dropWhile_shape (p : Nat → Bool) (l : BStr) :
    l.dropWhile p = [] ∨
      ∃ c r, l.dropWhile p = c :: r ∧ p c = false := by
  induction l with
  | nil => exact Or.inl rfl
  | cons x t ih =>
    by_cases hx : p x = true
    · simpa [List.dropWhile_cons, hx] using ih
    · exact Or.inr ⟨x, t, by simp [List.dropWhile_cons, hx], Bool.not_eq_true _ ▸ hx⟩

theorem take1_append_left {a : BStr} (b : BStr) (ha : a ≠ []) :
    (a ++ b).take 1 = a.take 1 := by
  cases a with
  | nil => exact absurd rfl ha
  | cons x t => simp [List.take_cons]

theorem take1_head {a : BStr} {c : Nat} (h : a.take 1 = [c]) :
    ∃ t, a = c :: t := by
  cases a with
  | nil => simp at h
  | cons x t =>
    simp [List.take_cons] at h
    exact ⟨t, by rw [h]⟩

theorem cleanUrlB_subset (u : BStr) : cleanUrlB u ⊆ u :=
  fun x hx =>
    List.dropWhile_subset _ ((List.filter_subset' _) hx)

theorem cleanUrlB_clean (u : BStr) : CleanB (cleanUrlB u) := by
  intro b hb
  have := (List.mem_filter.1 hb).2
  intro hc
  rcases hc with h | h | h <;> simp [h] at this

theorem cleanUrlB_id {u : BStr} (h1 : ∀ b ∈ u.take 1, 32 < b)
    (h2 : CleanB u) : cleanUrlB u = u := by
  unfold cleanUrlB
  have hd : u.dropWhile (fun b => b ≤ 32) = u := by
    cases u with
    | nil => rfl
    | cons x t =>
      have hx : 32 < x := h1 x (by simp [List.take_cons])
      simp [List.dropWhile_cons, Nat.not_le.2 hx]
  rw [hd]
  apply List.filter_eq_self.2
  intro b hb
  have := h2 b hb
  simp only [ne_eq, Bool.and_eq_true, bne_iff_ne]
  exact ⟨⟨fun hc => this (Or.inl hc), fun hc => this (Or.inr (Or.inl hc))⟩,
    fun hc => this (Or.inr (Or.inr hc))⟩

theorem splitSchemeB_snd_subset (u : BStr) : (splitSchemeB u).2 ⊆ u := by
  unfold splitSchemeB
  by_cases h : ((u.takeWhile (fun b => b != 58)).length < u.length &&
      !(u.takeWhile (fun b => b != 58)).isEmpty &&
      isAlphaB ((u.takeWhile (fun b => b != 58)).headD 0) &&
      (u.takeWhile (fun b => b != 58)).all isSchemeCharB) = true
  · rw [if_pos h]
    exact List.drop_subset _ u
  · rw [if_neg h]
    exact fun x hx => hx

theorem splitNetlocB_snd_subset (u : BStr) : (splitNetlocB u).2 ⊆ u := by
  unfold splitNetlocB
  by_cases h : u.take 2 = [47, 47]
  · rw [if_pos h]
    exact fun x hx => List.drop_subset 2 u (List.dropWhile_subset _ hx)
  · rw [if_neg h]
    exact fun x hx => hx

theorem urlparseB_query_subset (u : BStr) : (urlparseB u).query ⊆ u := by
  unfold urlparseB
  rcases hS : splitSchemeB (cleanUrlB u) with ⟨sch, r1⟩
  rcases hN : splitNetlocB r1 with ⟨nl, r2⟩
  rcases hF : splitFirstB 35 r2 with ⟨r3, frag⟩
  rcases hQ : splitFirstB 63 r3 with ⟨r4, qry⟩
  have hsub : qry ⊆ u := by
    intro x hx
    have h3 : x ∈ r3 := by
      have := splitFirstB_snd_subset 63 r3
      rw [hQ] at this
      exact this hx
    have h2 : x ∈ r2 := by
      have := splitFirstB_fst_subset 35 r2
      rw [hF] at this
      exact this h3
    have h1 : x ∈ r1 := by
      have := splitNetlocB_snd_subset r1
      rw [hN] at this
      exact this h2
    have h0 : x ∈ cleanUrlB u := by
      have := splitSchemeB_snd_subset (cleanUrlB u)
      rw [hS] at this
      exact this h1
    exact cleanUrlB_subset u h0
  dsimp only
  rw [hS]; dsimp only
  rw [hN]; dsimp only
  rw [hF]; dsimp only
  rw [hQ]; dsimp only
  by_cases hc : ((decide (sch = []) || usesParams.contains sch) &&
      r4.contains 59) = true
  · rw [if_pos hc]
    exact hsub
  · rw [if_neg hc]
    exact hsub

/-! ### Scheme component lemmas -/

theorem toLowerB_alpha {b : Nat} (h : isAlphaB b = true) :
    isAlphaB (toLowerB b) = true := by
  unfold isAlphaB toLowerB at *
  by_cases hc : 65 ≤ b ∧ b ≤ 90
  · rw [if_pos hc]
    simp only [Bool.or_eq_true, Bool.and_eq_true, decide_eq_true_eq]
    omega
  · rwa [if_neg hc]

theorem toLowerB_schemeChar {b : Nat} (h : isSchemeCharB b = true) :
    isSchemeCharB (toLowerB b) = true := by
  unfold isSchemeCharB isAlphaB toLowerB at *
  by_cases hc : 65 ≤ b ∧ b ≤ 90
  · rw [if_pos hc]
    simp only [Bool.or_eq_true, Bool.and_eq_true, decide_eq_true_eq, beq_iff_eq]
    omega
  · rwa [if_neg hc]

theorem toLowerB_fix (b : Nat) : toLowerB (toLowerB b) = toLowerB b := by
  unfold toLowerB
  by_cases hc : 65 ≤ b ∧ b ≤ 90
  · rw [if_pos hc, if_neg (by omega)]
  · rw [if_neg hc, if_neg hc]

theorem toLowerB_clean {b : Nat} (h : ¬(b = 9 ∨ b = 10 ∨ b = 13)) :
    ¬(toLowerB b = 9 ∨ toLowerB b = 10 ∨ toLowerB b = 13) := by
  unfold toLowerB
  by_cases hc : 65 ≤ b ∧ b ≤ 90
  · rw [if_pos hc]
    omega
  · rwa [if_neg hc]

theorem schemeChar_ne_58 {b : Nat} (h : isSchemeCharB b = true) : b ≠ 58 := by
  unfold isSchemeCharB isAlphaB at h
  simp only [Bool.or_eq_true, Bool.and_eq_true, decide_eq_true_eq, beq_iff_eq] at h
  omega

/-- `splitSchemeB` yields either no scheme or a valid lower-case one. -/
theorem splitSchemeB_valid (u : BStr) :
    (splitSchemeB u).1 = [] ∨ ValidSchemeB (splitSchemeB u).1 := by
  unfold splitSchemeB
  by_cases h : ((u.takeWhile (fun b => b != 58)).length < u.length &&
      !(u.takeWhile (fun b => b != 58)).isEmpty &&
      isAlphaB ((u.takeWhile (fun b => b != 58)).headD 0) &&
      (u.takeWhile (fun b => b != 58)).all isSchemeCharB) = true
  · rw [if_pos h]
    simp only [Bool.and_eq_true, Bool.not_eq_true', List.all_eq_true] at h
    obtain ⟨⟨⟨_, hne0⟩, hhead⟩, hall⟩ := h
    have hne : u.takeWhile (fun b => b != 58) ≠ [] := by
      intro hc
      simp [hc] at hne0
    refine Or.inr ⟨?_, ?_, ?_, ?_⟩
    · simp only [ne_eq, List.map_eq_nil_iff]
      exact hne
    · cases hpre : u.takeWhile (fun b => b != 58) with
      | nil => exact absurd hpre hne
      | cons x t =>
        rw [hpre] at hhead
        simp only [List.map_cons, List.headD_cons] at *
        exact toLowerB_alpha hhead
    · intro b hb
      rcases List.mem_map.1 hb with ⟨c, hc, rfl⟩
      exact toLowerB_schemeChar (hall c hc)
    · intro b hb
      rcases List.mem_map.1 hb with ⟨c, hc, rfl⟩
      exact toLowerB_fix c
  · rw [if_neg (fun hc => (Bool.not_eq_true _).mpr (by simpa using h) hc)]
    exact Or.inl rfl

/-- Parsing a rendered `scheme:rest` recovers the scheme exactly. -/
theorem splitSchemeB_render {s : BStr} (rest : BStr) (hs : ValidSchemeB s) :
    splitSchemeB (s ++ 58 :: rest) = (s, rest) := by
  obtain ⟨hne, hhead, hchars, hlow⟩ := hs
  have h58 : ∀ b ∈ s, (b != 58) = true := by
    intro b hb
    simpa using schemeChar_ne_58 (hchars b hb)
  have hpre : (s ++ 58 :: rest).takeWhile (fun b => b != 58) = s :=
    takeWhile_append_cons 58 rest h58 (by simp)
  unfold splitSchemeB
  rw [hpre]
  have hcond : (s.length < (s ++ 58 :: rest).length && !s.isEmpty &&
      isAlphaB (s.headD 0) && s.all isSchemeCharB) = true := by
    simp only [Bool.and_eq_true, Bool.not_eq_true', List.all_eq_true]
    refine ⟨⟨⟨by simp, by simpa [List.isEmpty_iff] using hne⟩, hhead⟩, hchars⟩
  rw [if_pos hcond]
  have hmap : s.map toLowerB = s := by
    have := List.map_congr_left hlow
    simpa using this
  have hdrop : (s ++ 58 :: rest).drop (s.length + 1) = rest := by
    have : s ++ 58 :: rest = (s ++ [58]) ++ rest := by simp
    rw [this]
    have hl : s.length + 1 = (s ++ [58]).length := by simp
    rw [hl, List.drop_left]
  rw [hmap, hdrop]

/-- A string starting with `/` has no scheme. -/
theorem splitSchemeB_slash {u : BStr} (h : u.take 1 = [47]) :
    splitSchemeB u = ([], u) := by
  obtain ⟨t, rfl⟩ := take1_head h
  unfold splitSchemeB
  have hpre : (47 :: t).takeWhile (fun b => b != 58) =
      47 :: t.takeWhile (fun b => b != 58) := by
    simp [List.takeWhile_cons]
  rw [hpre]
  have hcond : ¬((47 :: t.takeWhile (fun b => b != 58)).length < (47 :: t).length &&
      !(47 :: t.takeWhile (fun b => b != 58)).isEmpty &&
      isAlphaB ((47 :: t.takeWhile (fun b => b != 58)).headD 0) &&
      (47 :: t.takeWhile (fun b => b != 58)).all isSchemeCharB) = true := by
    simp [isAlphaB]
  rw [if_neg hcond]

/-! ### Netloc, path and params recovery lemmas -/

/-- Parsing a rendered `//netloc tail` recovers the netloc when the tail is
empty or starts with a stopper byte. -/
theorem splitNetlocB_render (netloc tail : BStr)
    (hn : ∀ b ∈ netloc, b ≠ 47 ∧ b ≠ 63 ∧ b ≠ 35)
    (ht : tail = [] ∨ tail.take 1 = [47] ∨ tail.take 1 = [63] ∨
      tail.take 1 = [35]) :
    splitNetlocB ([47, 47] ++ netloc ++ tail) = (netloc, tail) := by
  unfold splitNetlocB
  have htake2 : ([47, 47] ++ netloc ++ tail).take 2 = [47, 47] := by
    simp [List.take_cons]
  rw [if_pos htake2]
  have hdrop2 : ([47, 47] ++ netloc ++ tail).drop 2 = netloc ++ tail := by
    simp
  rw [hdrop2]
  have hnp : ∀ b ∈ netloc, (b != 47 && b != 63 && b != 35) = true := by
    intro b hb
    have := hn b hb
    simp only [Bool.and_eq_true, bne_iff_ne, ne_eq]
    exact ⟨⟨this.1, this.2.1⟩, this.2.2⟩
  rcases ht with rfl | h | h | h
  · dsimp only
    rw [List.append_nil, takeWhile_all hnp, dropWhile_all hnp]
  all_goals {
    obtain ⟨t, rfl⟩ := take1_head h
    dsimp only
    rw [takeWhile_append_cons _ _ hnp (by simp),
      dropWhile_append_cons _ _ hnp (by simp)]
  }

/-- The part before the first occurrence of `c` never contains `c`. -/
theorem splitFirstB_fst_no_c (c : Nat) (s : BStr) :
    ∀ x ∈ (splitFirstB c s).1, x ≠ c := by
  unfold splitFirstB
  by_cases h : s.contains c = true
  · rw [if_pos h]
    intro x hx
    have := List.mem_takeWhile_imp hx
    simpa using this
  · rw [if_neg h]
    intro x hx hc
    subst hc
    exact h ((containsB_iff s x).2 hx)

/-- Appending slash-free text moves it into the last segment. -/
theorem breakLastSlashB_append {B : BStr} (A : BStr) (hB : 47 ∉ B) :
    breakLastSlashB (A ++ B) =
      ((breakLastSlashB A).1, (breakLastSlashB A).2 ++ B) := by
  unfold breakLastSlashB
  have hBr : ∀ x ∈ B.reverse, (x != 47) = true := by
    intro x hx
    simp only [List.mem_reverse] at hx
    simp only [bne_iff_ne, ne_eq]
    exact fun hc => hB (hc ▸ hx)
  rw [List.reverse_append,
    takeWhile_append_all _ hBr, dropWhile_append_all _ hBr]
  simp

/-- A string ending in a slash is entirely its own head part. -/
theorem breakLastSlashB_slash (A : BStr) :
    breakLastSlashB (A ++ [47]) = (A ++ [47], []) := by
  unfold breakLastSlashB
  rw [List.reverse_append]
  simp [List.takeWhile_cons, List.dropWhile_cons]

/-- With no slash at all, everything is the last segment. -/
theorem breakLastSlashB_no_slash {u : BStr} (h : 47 ∉ u) :
    breakLastSlashB u = ([], u) := by
  unfold breakLastSlashB
  have hr : ∀ x ∈ u.reverse, (x != 47) = true := by
    intro x hx
    simp only [List.mem_reverse] at hx
    simp only [bne_iff_ne, ne_eq]
    exact fun hc => h (hc ▸ hx)
  rw [takeWhile_all hr, dropWhile_all hr]
  simp

/-- The head part of `breakLastSlashB` is empty or ends in a slash. -/
theorem breakLastSlashB_fst_shape (u : BStr) :
    (breakLastSlashB u).1 = [] ∨ ∃ A, (breakLastSlashB u).1 = A ++ [47] := by
  unfold breakLastSlashB
  rcases dropWhile_shape (fun b => b != 47) u.reverse with h | ⟨c, r, h, hc⟩
  · rw [h]
    exact Or.inl rfl
  · rw [h]
    have hc47 : c = 47 := by simpa using hc
    subst hc47
    exact Or.inr ⟨r.reverse, by simp⟩

/-- The last segment of `breakLastSlashB` applied to a head part is empty. -/
theorem breakLastSlashB_fst_again (u : BStr) :
    breakLastSlashB ((breakLastSlashB u).1) = ((breakLastSlashB u).1, []) := by
  rcases breakLastSlashB_fst_shape u with h | ⟨A, h⟩
  · rw [h]
    exact breakLastSlashB_no_slash (List.not_mem_nil 47)
  · rw [h]
    exact breakLastSlashB_slash A

/-- Parsing a rendered `path;params` recovers both components. -/
theorem splitParamsB_with_params {path : BStr} (params : BStr)
    (hp1 : path.take 1 = [47]) (hseg : 59 ∉ (breakLastSlashB path).2)
    (hpar : 47 ∉ params) :
    splitParamsB (path ++ 59 :: params) = (path, params) := by
  have hmem47 : (path ++ 59 :: params).contains 47 = true := by
    obtain ⟨t, rfl⟩ := take1_head hp1
    exact (containsB_iff _ 47).2 (by simp)
  have hB : 47 ∉ (59 :: params : BStr) := by
    intro hc
    rcases List.mem_cons.1 hc with h | h
    · exact absurd h.symm (by simp)
    · exact hpar h
  have hbls : breakLastSlashB (path ++ 59 :: params) =
      ((breakLastSlashB path).1, (breakLastSlashB path).2 ++ 59 :: params) :=
    breakLastSlashB_append path hB
  have hseg59 : ((breakLastSlashB path).2 ++ 59 :: params).contains 59 = true :=
    (containsB_iff _ 59).2 (by simp)
  have hsf : splitFirstB 59 ((breakLastSlashB path).2 ++ 59 :: params) =
      ((breakLastSlashB path).2, params) :=
    splitFirstB_append params hseg
  unfold splitParamsB
  rw [if_pos hmem47, hbls]
  dsimp only
  rw [if_pos hseg59, hsf]
  dsimp only
  rw [breakLastSlashB_join]

/-- A path whose last segment has no `;` carries no params. -/
theorem splitParamsB_no_params {path : BStr}
    (hp1 : path.take 1 = [47]) (hseg : 59 ∉ (breakLastSlashB path).2) :
    splitParamsB path = (path, []) := by
  have hmem47 : path.contains 47 = true := by
    obtain ⟨t, rfl⟩ := take1_head hp1
    exact (containsB_iff _ 47).2 (by simp)
  unfold splitParamsB
  rw [if_pos hmem47]
  dsimp only
  rw [containsB_false _ 59 hseg, if_neg (fun hc => Bool.noConfusion hc)]

/-! ### The `/start` path rewrite -/

theorem rstripSlashB_pref (p : BStr) : rstripSlashB p <+: p := by
  unfold rstripSlashB
  have h := List.dropWhile_suffix (l := p.reverse) (p := fun b => b == 47)
  obtain ⟨t, ht⟩ := h
  refine ⟨t.reverse, ?_⟩
  have := congrArg List.reverse ht
  simpa using this

theorem rstripSlashB_subset (p : BStr) : rstripSlashB p ⊆ p :=
  (rstripSlashB_pref p).subset

theorem prefix_take1 {a p : BStr} (h : a <+: p) (ha : a ≠ []) :
    p.take 1 = a.take 1 := by
  obtain ⟨t, rfl⟩ := h
  exact take1_append_left t ha

/-- The rewritten path always begins with a slash when the original path
was empty or slash-initial. -/
theorem directPathB_take1 {p : BStr} (h : p = [] ∨ p.take 1 = [47]) :
    (directPathB p).take 1 = [47] := by
  unfold directPathB
  by_cases hnp : rstripSlashB p = []
  · rw [hnp]
    have hsuf : startSeg.isSuffixOf ([] : BStr) = false := by decide
    rw [if_neg (by simp [hsuf])]
    rfl
  · have hp1 : p.take 1 = [47] := by
      rcases h with rfl | h
      · exact absurd (by rfl) hnp
      · exact h
    have hr1 : (rstripSlashB p).take 1 = [47] :=
      (prefix_take1 (rstripSlashB_pref p) hnp).symm.trans hp1
    by_cases hsuf : startSeg.isSuffixOf (rstripSlashB p) = true
    · rw [if_pos hsuf]
      exact hr1
    · rw [if_neg hsuf]
      rw [take1_append_left _ hnp]
      exact hr1

/-- The rewritten path always ends in the `/start` segment. -/
theorem directPathB_suffix (p : BStr) : startSeg <:+ directPathB p := by
  unfold directPathB
  by_cases hsuf : startSeg.isSuffixOf (rstripSlashB p) = true
  · rw [if_pos hsuf]
    exact List.isSuffixOf_iff_suffix.1 hsuf
  · rw [if_neg hsuf]
    exact List.suffix_append _ _

/-- The last segment of the rewritten path is exactly `start`. -/
theorem directPathB_semi (p : BStr) :
    (breakLastSlashB (directPathB p)).2 = [115, 116, 97, 114, 116] := by
  obtain ⟨X, hX⟩ := directPathB_suffix p
  have hX' : (X ++ [47]) ++ [115, 116, 97, 114, 116] = directPathB p := by
    rw [← hX]
    simp [startSeg]
  rw [← hX', breakLastSlashB_append (X ++ [47]) (by decide),
    breakLastSlashB_slash]
  rfl

theorem directPathB_mem {p : BStr} {x : Nat} (h : x ∈ directPathB p) :
    x ∈ p ∨ x ∈ startSeg := by
  unfold directPathB at h
  by_cases hsuf : startSeg.isSuffixOf (rstripSlashB p) = true
  · rw [if_pos hsuf] at h
    exact Or.inl (rstripSlashB_subset p h)
  · rw [if_neg hsuf] at h
    rcases List.mem_append.1 h with h | h
    · exact Or.inl (rstripSlashB_subset p h)
    · exact Or.inr h

/-! ### Byte facts about `urlencode` output and plain `unquote` -/

theorem mem_joinSepB {sep x : Nat} :
    ∀ {fields : List BStr}, x ∈ joinSepB sep fields →
      x = sep ∨ ∃ f ∈ fields, x ∈ f := by
  intro fields
  induction fields with
  | nil => intro hx; exact absurd hx (List.not_mem_nil x)
  | cons f gs ih =>
    cases gs with
    | nil =>
      intro hx
      exact Or.inr ⟨f, List.mem_cons_self f [], hx⟩
    | cons g rest =>
      intro hx
      rcases List.mem_append.1 hx with h | h
      · exact Or.inr ⟨f, List.mem_cons_self _ _, h⟩
      · rcases List.mem_cons.1 h with rfl | h
        · exact Or.inl rfl
        · rcases ih h with h | ⟨f', hf', hxf'⟩
          · exact Or.inl h
          · exact Or.inr ⟨f', List.mem_cons_of_mem f hf', hxf'⟩

/-- Every byte of a re-encoded query is URL-inert: no `?`, `#`, `/`, `;`,
`:` and no whitespace control byte. -/
theorem urlencodeB_facts (d : List (BStr × List BStr)) :
    ∀ x ∈ urlencodeB d, x ≠ 63 ∧ x ≠ 35 ∧ x ≠ 47 ∧ x ≠ 59 ∧ x ≠ 58 ∧
      ¬(x = 9 ∨ x = 10 ∨ x = 13) := by
  intro x hx
  rcases mem_joinSepB hx with rfl | ⟨f, hf, hxf⟩
  · refine ⟨by decide, by decide, by decide, by decide, by decide, by decide⟩
  · rcases List.mem_flatten.1 hf with ⟨l, hl, hfl⟩
    rcases List.mem_map.1 hl with ⟨kv, _, rfl⟩
    rcases List.mem_map.1 hfl with ⟨v, _, rfl⟩
    rcases List.mem_append.1 hxf with h | h
    · have := quotePlusB_facts kv.1 x h
      exact ⟨this.2.2.1, this.2.2.2.1, this.2.2.2.2.2.1,
        this.2.2.2.2.2.2.1, this.2.2.2.2.1, this.2.2.2.2.2.2.2.1⟩
    · rcases List.mem_cons.1 h with rfl | h
      · refine ⟨by decide, by decide, by decide, by decide, by decide, by decide⟩
      · have := quotePlusB_facts v x h
        exact ⟨this.2.2.1, this.2.2.2.1, this.2.2.2.2.2.1,
          this.2.2.2.2.2.2.1, this.2.2.2.2.1, this.2.2.2.2.2.2.2.1⟩

/-- Percent-decoding is the identity on escape-free text. -/
theorem unquoteB_no_escape : ∀ {s : BStr}, 37 ∉ s → unquoteB s = s := by
  intro s
  induction s with
  | nil => intro _; rw [unquoteB.eq_def]
  | cons b t ih =>
    intro h
    have hb : b ≠ 37 := fun hc => h (hc ▸ List.mem_cons_self b t)
    rw [unquoteB_cons_ne t hb, ih (fun hc => h (List.mem_cons_of_mem b hc))]

/-- `unquote_plus` is the identity on text free of `%` and `+`. -/
theorem unquotePlusB_plain {s : BStr} (h : ∀ b ∈ s, b ≠ 37 ∧ b ≠ 43) :
    unquotePlusB s = s := by
  unfold unquotePlusB
  have hmap : s.map (fun b => if b = 43 then 32 else b) = s := by
    have : ∀ b ∈ s, (fun b => if b = 43 then 32 else b) b = b := by
      intro b hb
      simp [(h b hb).2]
    simpa using List.map_congr_left this
  rw [hmap]
  apply unquoteB_no_escape
  intro hc
  exact (h 37 hc).1 rfl

/-! ### The rendered form of a parsed URL with authority -/

theorem urlunsplitB_shape (scheme netloc url query fragment : BStr)
    (hn : netloc ≠ []) (hurl : url = [] ∨ url.take 1 = [47]) :
    urlunsplitB scheme netloc url query fragment =
      (if scheme.isEmpty then [] else scheme ++ [58]) ++
        [47, 47] ++ netloc ++ url ++
        (if query.isEmpty then [] else 63 :: query) ++
        (if fragment.isEmpty then [] else 35 :: fragment) := by
  unfold urlunsplitB
  have hc2 : ¬(¬url = [] ∧ ¬url.take 1 = [47]) := by
    rcases hurl with rfl | h
    · exact fun hc => hc.1 rfl
    · exact fun hc => hc.2 h
  by_cases hs : scheme = [] <;> by_cases hq : query = [] <;>
    by_cases hf : fragment = [] <;>
    simp [hs, hq, hf, hn, hc2, List.append_assoc]

/-- A parsed URL with authority renders to the canonical concatenation of
its components. -/
theorem geturlB_shape (p : UrlParts) (hnet : p.netloc ≠ [])
    (hps : (p.path = [] ∧ p.params = []) ∨ p.path.take 1 = [47]) :
    geturlB p =
      (if p.scheme.isEmpty then [] else p.scheme ++ [58]) ++
        [47, 47] ++ p.netloc ++
        (if p.params.isEmpty then p.path else p.path ++ 59 :: p.params) ++
        (if p.query.isEmpty then [] else 63 :: p.query) ++
        (if p.fragment.isEmpty then [] else 35 :: p.fragment) := by
  unfold geturlB
  have hurl : (if p.params.isEmpty then p.path
        else p.path ++ [59] ++ p.params) = [] ∨
      (if p.params.isEmpty then p.path
        else p.path ++ [59] ++ p.params).take 1 = [47] := by
    by_cases hpe : p.params.isEmpty = true
    · rw [if_pos hpe]
      rcases hps with ⟨h, _⟩ | h
      · exact Or.inl h
      · exact Or.inr h
    · rw [if_neg hpe]
      have hpar : p.params ≠ [] := by
        intro hc
        simp [hc] at hpe
      have hp1 : p.path.take 1 = [47] := by
        rcases hps with ⟨_, h⟩ | h
        · exact absurd h hpar
        · exact h
      have hpne : p.path ≠ [] := by
        intro hc
        rw [hc] at hp1
        simp at hp1
      refine Or.inr ?_
      rw [List.append_assoc, take1_append_left _ hpne]
      exact hp1
  rw [urlunsplitB_shape _ _ _ _ _ hnet hurl]
  by_cases hpe : p.params.isEmpty = true
  · rw [if_pos hpe, if_pos hpe]
  · rw [if_neg hpe, if_neg hpe]
    simp

/-! ### Assembling the exact-reparse proof -/

theorem CleanB_nil : CleanB [] := fun b hb => absurd hb (List.not_mem_nil b)

theorem CleanB_append {a b : BStr} (ha : CleanB a) (hb : CleanB b) :
    CleanB (a ++ b) := by
  intro x hx
  rcases List.mem_append.1 hx with h | h
  · exact ha x h
  · exact hb x h

theorem CleanB_cons {c : Nat} {t : BStr} (hc : ¬(c = 9 ∨ c = 10 ∨ c = 13))
    (ht : CleanB t) : CleanB (c :: t) := by
  intro x hx
  rcases List.mem_cons.1 hx with rfl | h
  · exact hc
  · exact ht x h

/-- Splitting at `c` after appending an optional `c`-prefixed part recovers
both sides. -/
theorem splitFirstB_opt (c : Nat) (a b : BStr) (h : c ∉ a) :
    splitFirstB c (a ++ (if b.isEmpty then [] else c :: b)) = (a, b) := by
  by_cases hb : b = []
  · subst hb
    rw [if_pos (show ([] : BStr).isEmpty = true from rfl), List.append_nil]
    exact splitFirstB_of_not_mem h
  · rw [if_neg (by simpa [List.isEmpty_iff] using hb)]
    exact splitFirstB_append b h

/-- Scheme recovery for an optionally rendered scheme in front of a
slash-initial remainder. -/
theorem splitSchemeB_opt (S rest : BStr) (hS : S = [] ∨ ValidSchemeB S)
    (hr : rest.take 1 = [47]) :
    splitSchemeB ((if S.isEmpty then [] else S ++ [58]) ++ rest) =
      (S, rest) := by
  rcases hS with rfl | hv
  · rw [if_pos (show ([] : BStr).isEmpty = true from rfl), List.nil_append]
    exact splitSchemeB_slash hr
  · have hne : S ≠ [] := hv.1
    rw [if_neg (by simpa [List.isEmpty_iff] using hne)]
    have : (S ++ [58]) ++ rest = S ++ 58 :: rest := by simp
    rw [this]
    exact splitSchemeB_render rest hv

/-- The first byte of an optionally-schemed authority URL is printable. -/
theorem head32_of_shape (S X : BStr) (hS : S = [] ∨ ValidSchemeB S)
    (hX : X.take 1 = [47]) :
    ∀ b ∈ ((if S.isEmpty then [] else S ++ [58]) ++ X).take 1, 32 < b := by
  rcases hS with rfl | hv
  · intro b hb
    rw [if_pos (show ([] : BStr).isEmpty = true from rfl),
      List.nil_append, hX] at hb
    rcases List.mem_cons.1 hb with rfl | hb
    · omega
    · exact absurd hb (List.not_mem_nil b)
  · cases S with
    | nil => exact absurd rfl hv.1
    | cons c t =>
      intro b hb
      have he : ((if (c :: t : BStr).isEmpty then []
          else (c :: t) ++ [58]) ++ X).take 1 = [c] := rfl
      rw [he] at hb
      rcases List.mem_cons.1 hb with rfl | hb
      · have halpha : isAlphaB b = true := hv.2.1
        unfold isAlphaB at halpha
        simp only [Bool.or_eq_true, Bool.and_eq_true, decide_eq_true_eq] at halpha
        omega
      · exact absurd hb (List.not_mem_nil b)

theorem isEmpty_false_of_ne {l : BStr} (h : l ≠ []) : ¬l.isEmpty = true := by
  intro hc
  exact h (by simpa [List.isEmpty_iff] using hc)

set_option maxHeartbeats 1000000 in
/-- A component tuple satisfying the authority-form invariants reparses
from its rendered URL to exactly the same components (the exact-reparse
core of the normalizer analysis). -/
theorem urlparseB_geturlB (p : UrlParts) (hp : PartsInv p) :
    urlparseB (geturlB p) = p := by
  obtain ⟨S, N, P, Pa, Q, F⟩ := p
  have hnet : N ≠ [] := hp.netloc_ne
  have hns : ∀ b ∈ N, b ≠ 47 ∧ b ≠ 63 ∧ b ≠ 35 := hp.netloc_stop
  have hvS : S = [] ∨ ValidSchemeB S := hp.scheme_ok
  have hpqf : ∀ b ∈ P, b ≠ 63 ∧ b ≠ 35 := hp.path_qf
  have hps : (P = [] ∧ Pa = []) ∨ P.take 1 = [47] := hp.path_slash
  have hpo : ∀ b ∈ Pa, b ≠ 63 ∧ b ≠ 35 ∧ b ≠ 47 := hp.params_ok
  have hgate : Pa ≠ [] → (S = [] ∨ usesParams.contains S = true) :=
    hp.params_gate
  have hsemi : (S = [] ∨ usesParams.contains S = true) →
      59 ∉ (breakLastSlashB P).2 := hp.semi_tail
  have hqo : ∀ b ∈ Q, b ≠ 63 ∧ b ≠ 35 := hp.query_ok
  have hcS : CleanB S := hp.clean_scheme
  have hcN : CleanB N := hp.clean_netloc
  have hcP : CleanB P := hp.clean_path
  have hcPa : CleanB Pa := hp.clean_params
  have hcQ : CleanB Q := hp.clean_query
  have hcF : CleanB F := hp.clean_fragment
  have hPfromPa : Pa ≠ [] → P.take 1 = [47] := by
    intro h
    rcases hps with ⟨_, h'⟩ | h'
    · exact absurd h' h
    · exact h'
  have hPne : P ≠ [] → P.take 1 = [47] := by
    intro h
    rcases hps with ⟨h', _⟩ | h'
    · exact absurd h' h
    · exact h'
  rw [geturlB_shape _ hnet hps]
  dsimp only
  have hre : ((((if S.isEmpty then [] else S ++ [58]) ++ [47, 47]) ++ N) ++
        (if Pa.isEmpty then P else P ++ 59 :: Pa) ++
        (if Q.isEmpty then [] else 63 :: Q) ++
        (if F.isEmpty then [] else 35 :: F)) =
      (if S.isEmpty then [] else S ++ [58]) ++
        (([47, 47] ++ N) ++
          (((if Pa.isEmpty then P else P ++ 59 :: Pa) ++
            (if Q.isEmpty then [] else 63 :: Q)) ++
            (if F.isEmpty then [] else 35 :: F))) := by
    simp [List.append_assoc]
  rw [hre]
  have hU0mem : ∀ b ∈ (if Pa.isEmpty then P else P ++ 59 :: Pa),
      b ≠ 63 ∧ b ≠ 35 := by
    by_cases hPae : Pa.isEmpty = true
    · rw [if_pos hPae]
      exact hpqf
    · rw [if_neg hPae]
      intro b hb
      rcases List.mem_append.1 hb with h | h
      · exact hpqf b h
      · rcases List.mem_cons.1 h with rfl | h
        · exact ⟨by omega, by omega⟩
        · exact ⟨(hpo b h).1, (hpo b h).2.1⟩
  have h63U0 : 63 ∉ (if Pa.isEmpty then P else P ++ 59 :: Pa) :=
    fun hc => (hU0mem 63 hc).1 rfl
  have h35A : 35 ∉ ((if Pa.isEmpty then P else P ++ 59 :: Pa) ++
      (if Q.isEmpty then [] else 63 :: Q)) := by
    intro hc
    rcases List.mem_append.1 hc with h | h
    · exact (hU0mem 35 h).2 rfl
    · by_cases hQe : Q.isEmpty = true
      · rw [if_pos hQe] at h
        exact List.not_mem_nil 35 h
      · rw [if_neg hQe] at h
        rcases List.mem_cons.1 h with h' | h'
        · omega
        · exact (hqo 35 h').2 rfl
  have hcls : (((if Pa.isEmpty then P else P ++ 59 :: Pa) ++
          (if Q.isEmpty then [] else 63 :: Q)) ++
          (if F.isEmpty then [] else 35 :: F)) = [] ∨
      (((if Pa.isEmpty then P else P ++ 59 :: Pa) ++
          (if Q.isEmpty then [] else 63 :: Q)) ++
          (if F.isEmpty then [] else 35 :: F)).take 1 = [47] ∨
      (((if Pa.isEmpty then P else P ++ 59 :: Pa) ++
          (if Q.isEmpty then [] else 63 :: Q)) ++
          (if F.isEmpty then [] else 35 :: F)).take 1 = [63] ∨
      (((if Pa.isEmpty then P else P ++ 59 :: Pa) ++
          (if Q.isEmpty then [] else 63 :: Q)) ++
          (if F.isEmpty then [] else 35 :: F)).take 1 = [35] := by
    by_cases hPa : Pa = []
    · subst hPa
      rw [if_pos (show ([] : BStr).isEmpty = true from rfl)]
      by_cases hP : P = []
      · subst hP
        simp only [List.nil_append]
        by_cases hQ : Q = []
        · subst hQ
          rw [if_pos (show ([] : BStr).isEmpty = true from rfl),
            List.nil_append]
          by_cases hF : F = []
          · subst hF
            rw [if_pos (show ([] : BStr).isEmpty = true from rfl)]
            exact Or.inl rfl
          · rw [if_neg (show ¬(F.isEmpty = true) from isEmpty_false_of_ne hF)]
            exact Or.inr (Or.inr (Or.inr rfl))
        · rw [if_neg (show ¬(Q.isEmpty = true) from isEmpty_false_of_ne hQ)]
          exact Or.inr (Or.inr (Or.inl rfl))
      · have hp1 := hPne hP
        refine Or.inr (Or.inl ?_)
        rw [take1_append_left _ (fun hc => hP (List.append_eq_nil.1 hc).1),
          take1_append_left _ hP]
        exact hp1
    · have hp1 := hPfromPa hPa
      have hPne' : P ≠ [] := by
        intro hc
        rw [hc] at hp1
        simp at hp1
      rw [if_neg (show ¬(Pa.isEmpty = true) from isEmpty_false_of_ne hPa)]
      refine Or.inr (Or.inl ?_)
      rw [take1_append_left _ (fun hc =>
          hPne' (List.append_eq_nil.1 (List.append_eq_nil.1 hc).1).1),
        take1_append_left _ (fun hc => hPne' (List.append_eq_nil.1 hc).1),
        take1_append_left _ hPne']
      exact hp1
  unfold urlparseB
  dsimp only
  rw [cleanUrlB_id
    (head32_of_shape S (([47, 47] ++ N) ++
      (((if Pa.isEmpty then P else P ++ 59 :: Pa) ++
        (if Q.isEmpty then [] else 63 :: Q)) ++
        (if F.isEmpty then [] else 35 :: F))) hvS (by simp))
    (by
      refine CleanB_append ?_ (CleanB_append
        (CleanB_append (by intro b hb; simp at hb; omega) hcN)
        (CleanB_append (CleanB_append ?_ ?_) ?_))
      · by_cases hSe : S.isEmpty = true
        · rw [if_pos hSe]
          exact CleanB_nil
        · rw [if_neg hSe]
          exact CleanB_append hcS (by intro b hb; simp at hb; omega)
      · by_cases hPae : Pa.isEmpty = true
        · rw [if_pos hPae]
          exact hcP
        · rw [if_neg hPae]
          exact CleanB_append hcP (CleanB_cons (by omega) hcPa)
      · by_cases hQe : Q.isEmpty = true
        · rw [if_pos hQe]
          exact CleanB_nil
        · rw [if_neg hQe]
          exact CleanB_cons (by omega) hcQ
      · by_cases hFe : F.isEmpty = true
        · rw [if_pos hFe]
          exact CleanB_nil
        · rw [if_neg hFe]
          exact CleanB_cons (by omega) hcF)]
  rw [splitSchemeB_opt S (([47, 47] ++ N) ++
      (((if Pa.isEmpty then P else P ++ 59 :: Pa) ++
        (if Q.isEmpty then [] else 63 :: Q)) ++
        (if F.isEmpty then [] else 35 :: F))) hvS (by simp)]
  dsimp only
  rw [splitNetlocB_render N
      (((if Pa.isEmpty then P else P ++ 59 :: Pa) ++
        (if Q.isEmpty then [] else 63 :: Q)) ++
        (if F.isEmpty then [] else 35 :: F)) hns hcls]
  dsimp only
  rw [splitFirstB_opt 35
      ((if Pa.isEmpty then P else P ++ 59 :: Pa) ++
        (if Q.isEmpty then [] else 63 :: Q)) F h35A]
  dsimp only
  rw [splitFirstB_opt 63 (if Pa.isEmpty then P else P ++ 59 :: Pa) Q h63U0]
  dsimp only
  by_cases hPa : Pa = []
  · subst hPa
    rw [if_pos (show ([] : BStr).isEmpty = true from rfl)]
    by_cases hcond : ((decide (S = []) || usesParams.contains S) &&
        P.contains 59) = true
    · rw [if_pos hcond]
      have hparts : (decide (S = []) || usesParams.contains S) = true ∧
          P.contains 59 = true := by
        rw [Bool.and_eq_true] at hcond
        exact hcond
      have hgateP : S = [] ∨ usesParams.contains S = true := by
        have := hparts.1
        simpa [Bool.or_eq_true, decide_eq_true_eq] using this
      have hPne' : P ≠ [] := by
        intro hc
        have h2 := hparts.2
        rw [hc] at h2
        exact Bool.noConfusion h2
      rw [splitParamsB_no_params (hPne hPne') (hsemi hgateP)]
    · rw [if_neg hcond]
  · rw [if_neg (show ¬(Pa.isEmpty = true) from isEmpty_false_of_ne hPa)]
    have hgateP := hgate hPa
    have hcond : ((decide (S = []) || usesParams.contains S) &&
        (P ++ 59 :: Pa).contains 59) = true := by
      rw [Bool.and_eq_true]
      refine ⟨?_, ?_⟩
      · rw [Bool.or_eq_true]
        rcases hgateP with h | h
        · exact Or.inl (by simp [h])
        · exact Or.inr h
      · exact (containsB_iff _ 59).2 (by simp)
    rw [if_pos hcond]
    rw [splitParamsB_with_params Pa (hPfromPa hPa) (hsemi hgateP)
      (fun hc => (hpo 47 hc).2.2 rfl)]

/-! ### Establishing the invariants for a freshly parsed URL -/

theorem CleanB_subset {a b : BStr} (hs : a ⊆ b) (hb : CleanB b) : CleanB a :=
  fun x hx => hb x (hs hx)

theorem splitFirstB_nil (c : Nat) : splitFirstB c [] = ([], []) :=
  splitFirstB_of_not_mem (List.not_mem_nil c)

/-- Splitting at the head byte leaves an empty first part. -/
theorem splitFirstB_fst_of_take1 (c : Nat) {s : BStr} (h : s.take 1 = [c]) :
    (splitFirstB c s).1 = [] := by
  obtain ⟨t, rfl⟩ := take1_head h
  unfold splitFirstB
  rw [if_pos ((containsB_iff _ c).2 (List.mem_cons_self c t))]
  simp [List.takeWhile_cons]

/-- Splitting at a byte other than the head keeps the head in front. -/
theorem splitFirstB_fst_take1 {c d : Nat} (hne : d ≠ c) {s : BStr}
    (h : s.take 1 = [d]) : (splitFirstB c s).1.take 1 = [d] := by
  obtain ⟨t, rfl⟩ := take1_head h
  unfold splitFirstB
  by_cases hc : (d :: t).contains c = true
  · rw [if_pos hc]
    dsimp only
    rw [List.takeWhile_cons, if_pos (by simpa using hne)]
    rfl
  · rw [if_neg hc]
    exact h

/-- The params component never contains a slash. -/
theorem splitParamsB_snd_no47 (u : BStr) :
    ∀ x ∈ (splitParamsB u).2, x ≠ 47 := by
  unfold splitParamsB
  by_cases h47 : u.contains 47 = true
  · rw [if_pos h47]
    dsimp only
    by_cases h59 : ((breakLastSlashB u).2).contains 59 = true
    · rw [if_pos h59]
      intro x hx
      exact breakLastSlashB_snd_no_slash u x
        (splitFirstB_snd_subset 59 _ hx)
    · rw [if_neg h59]
      intro x hx
      exact absurd hx (List.not_mem_nil x)
  · rw [if_neg h47]
    by_cases h59 : u.contains 59 = true
    · rw [if_pos h59]
      intro x hx hc
      subst hc
      exact h47 ((containsB_iff u 47).2 (splitFirstB_snd_subset 59 u hx))
    · rw [if_neg h59]
      intro x hx
      exact absurd hx (List.not_mem_nil x)

/-- The scheme component of a clean URL is clean. -/
theorem splitSchemeB_fst_clean {u : BStr} (h : CleanB u) :
    CleanB (splitSchemeB u).1 := by
  unfold splitSchemeB
  by_cases hc : ((u.takeWhile (fun b => b != 58)).length < u.length &&
      !(u.takeWhile (fun b => b != 58)).isEmpty &&
      isAlphaB ((u.takeWhile (fun b => b != 58)).headD 0) &&
      (u.takeWhile (fun b => b != 58)).all isSchemeCharB) = true
  · rw [if_pos hc]
    intro b hb
    rcases List.mem_map.1 hb with ⟨c, hcm, rfl⟩
    exact toLowerB_clean (h c (List.takeWhile_subset _ hcm))
  · rw [if_neg hc]
    exact CleanB_nil

/-- The head part of a slash-initial string is slash-initial. -/
theorem breakLastSlashB_fst_take1 {u : BStr} (h47 : u.contains 47 = true)
    (h : u.take 1 = [47]) : (breakLastSlashB u).1.take 1 = [47] := by
  have hne : (breakLastSlashB u).1 ≠ [] := by
    intro hc
    have hjoin := breakLastSlashB_join u
    rw [hc, List.nil_append] at hjoin
    exact breakLastSlashB_snd_no_slash u 47
      (by rw [hjoin]; exact (containsB_iff u 47).1 h47) rfl
  have hpre : (breakLastSlashB u).1 <+: u := ⟨_, breakLastSlashB_join u⟩
  exact (prefix_take1 hpre hne).symm.trans h

set_option maxHeartbeats 1000000 in
/-- The components of any URL that parses with a non-empty authority
satisfy every shape condition `PartsInv` imposes except those on the query
(which the normalizer replaces anyway). -/
theorem urlparseB_facts (u : BStr) (hnet : (urlparseB u).netloc ≠ []) :
    ((urlparseB u).scheme = [] ∨ ValidSchemeB (urlparseB u).scheme) ∧
    (∀ b ∈ (urlparseB u).netloc, b ≠ 47 ∧ b ≠ 63 ∧ b ≠ 35) ∧
    (∀ b ∈ (urlparseB u).path, b ≠ 63 ∧ b ≠ 35) ∧
    (((urlparseB u).path = [] ∧ (urlparseB u).params = []) ∨
      (urlparseB u).path.take 1 = [47]) ∧
    (∀ b ∈ (urlparseB u).params, b ≠ 63 ∧ b ≠ 35 ∧ b ≠ 47) ∧
    ((urlparseB u).params ≠ [] →
      ((urlparseB u).scheme = [] ∨
        usesParams.contains (urlparseB u).scheme = true)) ∧
    (((urlparseB u).scheme = [] ∨
        usesParams.contains (urlparseB u).scheme = true) →
      59 ∉ (breakLastSlashB (urlparseB u).path).2) ∧
    CleanB (urlparseB u).scheme ∧ CleanB (urlparseB u).netloc ∧
    CleanB (urlparseB u).path ∧ CleanB (urlparseB u).params ∧
    CleanB (urlparseB u).fragment := by
  rcases hS : splitSchemeB (cleanUrlB u) with ⟨sch, r1⟩
  rcases hN : splitNetlocB r1 with ⟨nl, r2⟩
  rcases hF : splitFirstB 35 r2 with ⟨r3, frag⟩
  rcases hQ : splitFirstB 63 r3 with ⟨r4, qry⟩
  have hu : urlparseB u =
      (if ((decide (sch = []) || usesParams.contains sch) &&
          r4.contains 59) = true then
        (⟨sch, nl, (splitParamsB r4).1, (splitParamsB r4).2, qry,
          frag⟩ : UrlParts)
      else ⟨sch, nl, r4, [], qry, frag⟩) := by
    unfold urlparseB
    dsimp only
    rw [hS]; dsimp only
    rw [hN]; dsimp only
    rw [hF]; dsimp only
    rw [hQ]
  have hcu : CleanB (cleanUrlB u) := cleanUrlB_clean u
  have hr1 : r1 ⊆ cleanUrlB u := by
    have := splitSchemeB_snd_subset (cleanUrlB u)
    rw [hS] at this
    exact this
  have hr2 : r2 ⊆ r1 := by
    have := splitNetlocB_snd_subset r1
    rw [hN] at this
    exact this
  have hr3 : r3 ⊆ r2 := by
    have := splitFirstB_fst_subset 35 r2
    rw [hF] at this
    exact this
  have hfragsub : frag ⊆ r2 := by
    have := splitFirstB_snd_subset 35 r2
    rw [hF] at this
    exact this
  have hr4 : r4 ⊆ r3 := by
    have := splitFirstB_fst_subset 63 r3
    rw [hQ] at this
    exact this
  have hr4cu : r4 ⊆ cleanUrlB u := fun x hx => hr1 (hr2 (hr3 (hr4 hx)))
  have h35r3 : ∀ x ∈ r3, x ≠ 35 := by
    have := splitFirstB_fst_no_c 35 r2
    rw [hF] at this
    exact this
  have h63r4 : ∀ x ∈ r4, x ≠ 63 := by
    have := splitFirstB_fst_no_c 63 r3
    rw [hQ] at this
    exact this
  have hr4f : ∀ x ∈ r4, x ≠ 63 ∧ x ≠ 35 :=
    fun x hx => ⟨h63r4 x hx, h35r3 x (hr4 hx)⟩
  have hschv : sch = [] ∨ ValidSchemeB sch := by
    have := splitSchemeB_valid (cleanUrlB u)
    rw [hS] at this
    exact this
  have hschc : CleanB sch := by
    have := splitSchemeB_fst_clean hcu
    rw [hS] at this
    exact this
  have hnl : (urlparseB u).netloc = nl := by
    rw [hu]
    split_ifs <;> rfl
  have hnlne : nl ≠ [] := by
    rw [← hnl]
    exact hnet
  have h2branch :
      nl = (r1.drop 2).takeWhile (fun b => b != 47 && b != 63 && b != 35) ∧
      r2 = (r1.drop 2).dropWhile (fun b => b != 47 && b != 63 && b != 35) := by
    unfold splitNetlocB at hN
    by_cases h2 : r1.take 2 = [47, 47]
    · rw [if_pos h2] at hN
      dsimp only at hN
      injection hN with ha hb
      exact ⟨ha.symm, hb.symm⟩
    · rw [if_neg h2] at hN
      injection hN with ha _
      exact absurd ha.symm hnlne
  have hnlstop : ∀ b ∈ nl, b ≠ 47 ∧ b ≠ 63 ∧ b ≠ 35 := by
    intro b hb
    rw [h2branch.1] at hb
    have := List.mem_takeWhile_imp hb
    simp only [Bool.and_eq_true, bne_iff_ne, ne_eq] at this
    exact ⟨this.1.1, this.1.2, this.2⟩
  have hnlsub : nl ⊆ r1 := by
    intro b hb
    rw [h2branch.1] at hb
    exact List.drop_subset 2 r1 (List.takeWhile_subset _ hb)
  have hr2shape : r2 = [] ∨ ∃ c t, r2 = c :: t ∧
      (c = 47 ∨ c = 63 ∨ c = 35) := by
    rcases dropWhile_shape (fun b => b != 47 && b != 63 && b != 35)
        (r1.drop 2) with h | ⟨c, r, hd, hcp⟩
    · rw [h2branch.2, h]
      exact Or.inl rfl
    · rw [h2branch.2, hd]
      refine Or.inr ⟨c, r, rfl, ?_⟩
      have h' : ¬(c ≠ 47 ∧ c ≠ 63 ∧ c ≠ 35) := by
        intro hcon
        have : (c != 47 && c != 63 && c != 35) = true := by
          simp [hcon.1, hcon.2.1, hcon.2.2]
        rw [hcp] at this
        exact Bool.noConfusion this
      by_cases hc47 : c = 47
      · exact Or.inl hc47
      by_cases hc63 : c = 63
      · exact Or.inr (Or.inl hc63)
      by_cases hc35 : c = 35
      · exact Or.inr (Or.inr hc35)
      exact absurd ⟨hc47, hc63, hc35⟩ h'
  have hr4shape : r4 = [] ∨ r4.take 1 = [47] := by
    rcases hr2shape with h | ⟨c, t, he, hcor⟩
    · left
      rw [h, splitFirstB_nil] at hF
      injection hF with ha _
      rw [← ha, splitFirstB_nil] at hQ
      injection hQ with hb _
      exact hb.symm
    · rcases hcor with rfl | rfl | rfl
      · right
        have h3 : r3.take 1 = [47] := by
          have := splitFirstB_fst_take1 (c := 35) (d := 47) (by omega)
            (s := r2) (by rw [he]; rfl)
          rw [hF] at this
          exact this
        have := splitFirstB_fst_take1 (c := 63) (d := 47) (by omega) (s := r3) h3
        rw [hQ] at this
        exact this
      · left
        have h3 : r3.take 1 = [63] := by
          have := splitFirstB_fst_take1 (c := 35) (d := 63) (by omega)
            (s := r2) (by rw [he]; rfl)
          rw [hF] at this
          exact this
        have := splitFirstB_fst_of_take1 63 h3
        rw [hQ] at this
        exact this
      · left
        have h3 : r3 = [] := by
          have := splitFirstB_fst_of_take1 35 (s := r2) (by rw [he]; rfl)
          rw [hF] at this
          exact this
        rw [h3, splitFirstB_nil] at hQ
        injection hQ with hb _
        exact hb.symm
  rw [hu]
  by_cases hcond : ((decide (sch = []) || usesParams.contains sch) &&
      r4.contains 59) = true
  · rw [if_pos hcond]
    dsimp only
    have hparts : (decide (sch = []) || usesParams.contains sch) = true ∧
        r4.contains 59 = true := by
      rw [Bool.and_eq_true] at hcond
      exact hcond
    have hr4ne : r4 ≠ [] := by
      intro hc
      have h2 := hparts.2
      rw [hc] at h2
      exact Bool.noConfusion h2
    have hr4t1 : r4.take 1 = [47] := by
      rcases hr4shape with h | h
      · exact absurd h hr4ne
      · exact h
    have h47r4 : r4.contains 47 = true := by
      obtain ⟨t, rfl⟩ := take1_head hr4t1
      exact (containsB_iff _ 47).2 (List.mem_cons_self _ _)
    have hgateP : sch = [] ∨ usesParams.contains sch = true := by
      have := hparts.1
      simpa [Bool.or_eq_true, decide_eq_true_eq] using this
    have hpathsub : (splitParamsB r4).1 ⊆ r4 := splitParamsB_fst_subset r4
    have hparsub : (splitParamsB r4).2 ⊆ r4 := splitParamsB_snd_subset r4
    by_cases hseg : ((breakLastSlashB r4).2).contains 59 = true
    · have hsp : splitParamsB r4 =
          ((breakLastSlashB r4).1 ++
            (splitFirstB 59 ((breakLastSlashB r4).2)).1,
           (splitFirstB 59 ((breakLastSlashB r4).2)).2) := by
        unfold splitParamsB
        rw [if_pos h47r4]
        dsimp only
        rw [if_pos hseg]
      have hbls1ne : (breakLastSlashB r4).1 ≠ [] := by
        intro hc
        have hjoin := breakLastSlashB_join r4
        rw [hc, List.nil_append] at hjoin
        exact breakLastSlashB_snd_no_slash r4 47
          (by rw [hjoin]; exact (containsB_iff r4 47).1 h47r4) rfl
      have hpt1 : (splitParamsB r4).1.take 1 = [47] := by
        rw [hsp]
        rw [take1_append_left _ hbls1ne]
        exact breakLastSlashB_fst_take1 h47r4 hr4t1
      have hsemi2 : 59 ∉ (breakLastSlashB ((splitParamsB r4).1)).2 := by
        rw [hsp]
        have h47sf : 47 ∉ (splitFirstB 59 ((breakLastSlashB r4).2)).1 :=
          fun hc => breakLastSlashB_snd_no_slash r4 47
            (splitFirstB_fst_subset 59 _ hc) rfl
        rw [breakLastSlashB_append _ h47sf, breakLastSlashB_fst_again r4]
        intro hc
        rcases List.mem_append.1 hc with h | h
        · exact absurd h (List.not_mem_nil 59)
        · exact splitFirstB_fst_no_c 59 _ 59 h rfl
      refine ⟨hschv, hnlstop, fun b hb => hr4f b (hpathsub hb),
        Or.inr hpt1,
        fun b hb => ⟨(hr4f b (hparsub hb)).1, (hr4f b (hparsub hb)).2,
          splitParamsB_snd_no47 r4 b hb⟩,
        fun _ => hgateP, fun _ => hsemi2, hschc,
        CleanB_subset (fun x hx => hr1 (hnlsub hx)) hcu,
        CleanB_subset (fun x hx => hr4cu (hpathsub hx)) hcu,
        CleanB_subset (fun x hx => hr4cu (hparsub hx)) hcu,
        CleanB_subset (fun x hx => hr1 (hr2 (hfragsub hx))) hcu⟩
    · have hsp : splitParamsB r4 = (r4, []) := by
        unfold splitParamsB
        rw [if_pos h47r4]
        dsimp only
        rw [if_neg hseg]
      have hsemi2 : 59 ∉ (breakLastSlashB ((splitParamsB r4).1)).2 := by
        rw [hsp]
        intro hc
        exact hseg ((containsB_iff _ 59).2 hc)
      refine ⟨hschv, hnlstop, fun b hb => hr4f b (hpathsub hb),
        Or.inr (by rw [hsp]; exact hr4t1),
        fun b hb => ⟨(hr4f b (hparsub hb)).1, (hr4f b (hparsub hb)).2,
          splitParamsB_snd_no47 r4 b hb⟩,
        fun _ => hgateP, fun _ => hsemi2, hschc,
        CleanB_subset (fun x hx => hr1 (hnlsub hx)) hcu,
        CleanB_subset (fun x hx => hr4cu (hpathsub hx)) hcu,
        CleanB_subset (fun x hx => hr4cu (hparsub hx)) hcu,
        CleanB_subset (fun x hx => hr1 (hr2 (hfragsub hx))) hcu⟩
  · rw [if_neg hcond]
    dsimp only
    have hsemi2 : (sch = [] ∨ usesParams.contains sch = true) →
        59 ∉ (breakLastSlashB r4).2 := by
      intro hgateP
      have hgb : (decide (sch = []) || usesParams.contains sch) = true := by
        rw [Bool.or_eq_true]
        rcases hgateP with h | h
        · exact Or.inl (by simp [h])
        · exact Or.inr h
      have h59 : r4.contains 59 = false := by
        cases hc : r4.contains 59 with
        | false => rfl
        | true => exact absurd (by rw [Bool.and_eq_true]; exact ⟨hgb, hc⟩) hcond
      intro hc
      have : (59 : Nat) ∈ r4 := breakLastSlashB_snd_subset r4 hc
      rw [(containsB_iff r4 59).2 this] at h59
      exact Bool.noConfusion h59
    refine ⟨hschv, hnlstop, hr4f, ?_,
      fun b hb => absurd hb (List.not_mem_nil b),
      fun hc => absurd rfl hc, hsemi2, hschc,
      CleanB_subset (fun x hx => hr1 (hnlsub hx)) hcu,
      CleanB_subset hr4cu hcu, CleanB_nil,
      CleanB_subset (fun x hx => hr1 (hr2 (hfragsub hx))) hcu⟩
    rcases hr4shape with h | h
    · exact Or.inl ⟨h, rfl⟩
    · exact Or.inr h

set_option maxHeartbeats 2000000 in
/-- The normalizer's output components satisfy the full reparse invariant
whenever the input URL parses with a non-empty authority. -/
theorem directParts_inv (u : BStr) (hnet : (urlparseB u).netloc ≠ []) :
    PartsInv (directParts (urlparseB u)) := by
  obtain ⟨hscheme, hnstop, hpqf, hpslash, hpo, hgate, hsemi, hcS, hcN, hcP,
    hcPa, hcF⟩ := urlparseB_facts u hnet
  set p := urlparseB u with hpdef
  clear_value p
  have hps' : p.path = [] ∨ p.path.take 1 = [47] := by
    rcases hpslash with ⟨h, _⟩ | h
    · exact Or.inl h
    · exact Or.inr h
  unfold directParts
  dsimp only
  by_cases hatt :
      (lookupQ attachKey (parseQsB p.query)).isSome = true
  · rw [if_pos hatt]
    refine ⟨hscheme, hnet, hnstop, ?_, Or.inr (directPathB_take1 hps'),
      hpo, hgate, ?_, ?_, hcS, hcN, ?_, hcPa, ?_, hcF⟩
    · intro b hb
      rcases directPathB_mem hb with h | h
      · exact hpqf b h
      · simp [startSeg] at h
        omega
    · intro _
      rw [directPathB_semi]
      decide
    · intro b hb
      exact ⟨(urlencodeB_facts _ b hb).1, (urlencodeB_facts _ b hb).2.1⟩
    · intro b hb
      rcases directPathB_mem hb with h | h
      · exact hcP b h
      · simp [startSeg] at h
        omega
    · intro b hb
      exact (urlencodeB_facts _ b hb).2.2.2.2.2
  · rw [if_neg hatt]
    refine ⟨hscheme, hnet, hnstop, hpqf, hpslash, hpo, hgate, hsemi,
      ?_, hcS, hcN, hcP, hcPa, ?_, hcF⟩
    · intro b hb
      exact ⟨(urlencodeB_facts _ b hb).1, (urlencodeB_facts _ b hb).2.1⟩
    · intro b hb
      exact (urlencodeB_facts _ b hb).2.2.2.2.2

/-- Parsing the normalizer's output yields exactly the transformed
components. -/
theorem u2d_reparse (u : BStr) (hnet : (urlparseB u).netloc ≠ []) :
    urlparseB (universal_url_to_direct_url u) = directParts (urlparseB u) := by
  unfold universal_url_to_direct_url
  exact urlparseB_geturlB _ (directParts_inv u hnet)

set_option maxHeartbeats 1000000 in
/-- The component transform is a projection: applying it to its own output
changes nothing, provided the query parses to a well-formed dictionary. -/
theorem directParts_fix (p : UrlParts)
    (hd : QDictInv (parseQsB p.query)) :
    directParts (directParts p) = directParts p := by
  unfold directParts
  dsimp only
  by_cases hatt : (lookupQ attachKey (parseQsB p.query)).isSome = true
  · rw [if_pos hatt]
    dsimp only
    rw [parseQsB_urlencodeB _ (eraseQ_inv hd),
      lookupQ_eraseQ_self hd.keys_nodup]
    rw [if_neg (fun hc => Bool.noConfusion hc)]
  · rw [if_neg hatt]
    dsimp only
    rw [parseQsB_urlencodeB _ hd]
    rw [if_neg hatt]

/-- The concrete query `attach=1` parses to the one-entry dictionary. -/
theorem parseQs_attach1 :
    parseQsB (bsOf "attach=1") = [(attachKey, [[49]])] := by
  have h1 : parseQsB (bsOf "attach=1") =
      [(unquotePlusB (bsOf "attach"), [unquotePlusB (bsOf "1")])] := rfl
  rw [h1, unquotePlusB_plain (by decide), unquotePlusB_plain (by decide)]
  decide

/-- C8 (counterexample): on the attach-carrying URL `https:x?attach=1`,
whose authority is empty, the returned URL's path is not the input path
with `/start` appended: reassembly inserts extra slashes and the path
becomes `/x/start` instead of `x/start`. So the claim's unconditional
path description is false as stated. -/
theorem universal_url_path_shift :
    (lookupQ attachKey (parseQsB
        (urlparseB (bsOf "https:x?attach=1")).query)).isSome = true ∧
    (urlparseB (universal_url_to_direct_url (bsOf "https:x?attach=1"))).path ≠
      directPathB (urlparseB (bsOf "https:x?attach=1")).path := by
  have hq : (urlparseB (bsOf "https:x?attach=1")).query = bsOf "attach=1" := by
    decide
  have hu2d : universal_url_to_direct_url (bsOf "https:x?attach=1") =
      bsOf "https:///x/start" := by
    unfold universal_url_to_direct_url
    rw [show urlparseB (bsOf "https:x?attach=1") =
      (⟨bsOf "https", [], bsOf "x", [], bsOf "attach=1", []⟩ : UrlParts) from
      by decide]
    unfold directParts
    dsimp only
    rw [parseQs_attach1]
    decide
  constructor
  · rw [hq, parseQs_attach1]
    decide
  · rw [hu2d]
    decide

set_option maxHeartbeats 1000000 in
/-- C8 (amended): for every URL whose bytes are below 256 and whose parse
has a non-empty authority, the transform behaves exactly as claimed at the
component level: with `attach` present, the output parses to the rewritten
path (trailing slashes trimmed, `/start` appended unless already the
suffix, hence the path ends in `/start`), its query parses back to the
original multi-value dictionary minus `attach` (so no `attach` parameter
survives); with `attach` absent, the path is unchanged and the query
re-encodes to the same dictionary; scheme, authority and fragment are
preserved in both cases. -/
theorem universal_url_direct_components (u : BStr)
    (hb : ∀ b ∈ u, b < 256) (hnet : (urlparseB u).netloc ≠ []) :
    (((lookupQ attachKey (parseQsB (urlparseB u).query)).isSome = true →
      (urlparseB (universal_url_to_direct_url u)).path =
          directPathB (urlparseB u).path ∧
        startSeg <:+ (urlparseB (universal_url_to_direct_url u)).path ∧
        parseQsB (urlparseB (universal_url_to_direct_url u)).query =
          eraseQ attachKey (parseQsB (urlparseB u).query) ∧
        lookupQ attachKey
          (parseQsB (urlparseB (universal_url_to_direct_url u)).query) =
          none) ∧
      ((lookupQ attachKey (parseQsB (urlparseB u).query)).isSome = false →
        (urlparseB (universal_url_to_direct_url u)).path =
            (urlparseB u).path ∧
          parseQsB (urlparseB (universal_url_to_direct_url u)).query =
            parseQsB (urlparseB u).query)) ∧
    (urlparseB (universal_url_to_direct_url u)).scheme =
      (urlparseB u).scheme ∧
    (urlparseB (universal_url_to_direct_url u)).netloc =
      (urlparseB u).netloc ∧
    (urlparseB (universal_url_to_direct_url u)).fragment =
      (urlparseB u).fragment := by
  have hd : QDictInv (parseQsB (urlparseB u).query) :=
    parseQsB_inv _ (fun b hbq => hb b (urlparseB_query_subset u hbq))
  have hrep : urlparseB (universal_url_to_direct_url u) =
      directParts (urlparseB u) := u2d_reparse u hnet
  rw [hrep]
  set p := urlparseB u with hpdef
  clear_value p
  unfold directParts
  dsimp only
  by_cases hatt : (lookupQ attachKey (parseQsB p.query)).isSome = true
  · rw [if_pos hatt]
    dsimp only
    refine ⟨⟨fun _ => ⟨rfl, directPathB_suffix _, ?_, ?_⟩, fun hc => ?_⟩,
      rfl, rfl, rfl⟩
    · exact parseQsB_urlencodeB _ (eraseQ_inv hd)
    · rw [parseQsB_urlencodeB _ (eraseQ_inv hd)]
      exact lookupQ_eraseQ_self hd.keys_nodup
    · rw [hc] at hatt
      exact Bool.noConfusion hatt
  · rw [if_neg hatt]
    dsimp only
    refine ⟨⟨fun hc => absurd hc hatt, fun _ => ⟨rfl, ?_⟩⟩, rfl, rfl, rfl⟩
    exact parseQsB_urlencodeB _ hd

/-- C8 (witness): the spec's own vector
`https://app.example/ton-connect?attach=1&v=2` satisfies both hypotheses,
and the amended theorem applies to it. -/
theorem universal_url_direct_components_witness :
    (∀ b ∈ bsOf "https://app.example/ton-connect?attach=1&v=2", b < 256) ∧
    (urlparseB (bsOf "https://app.example/ton-connect?attach=1&v=2")).netloc ≠
      [] ∧
    ((((lookupQ attachKey (parseQsB (urlparseB
        (bsOf "https://app.example/ton-connect?attach=1&v=2")).query)).isSome =
          true →
      (urlparseB (universal_url_to_direct_url
          (bsOf "https://app.example/ton-connect?attach=1&v=2"))).path =
          directPathB (urlparseB
            (bsOf "https://app.example/ton-connect?attach=1&v=2")).path ∧
        startSeg <:+ (urlparseB (universal_url_to_direct_url
          (bsOf "https://app.example/ton-connect?attach=1&v=2"))).path ∧
        parseQsB (urlparseB (universal_url_to_direct_url
            (bsOf "https://app.example/ton-connect?attach=1&v=2"))).query =
          eraseQ attachKey (parseQsB (urlparseB
            (bsOf "https://app.example/ton-connect?attach=1&v=2")).query) ∧
        lookupQ attachKey (parseQsB (urlparseB (universal_url_to_direct_url
            (bsOf "https://app.example/ton-connect?attach=1&v=2"))).query) =
          none) ∧
      ((lookupQ attachKey (parseQsB (urlparseB
          (bsOf "https://app.example/ton-connect?attach=1&v=2")).query)).isSome =
            false →
        (urlparseB (universal_url_to_direct_url
            (bsOf "https://app.example/ton-connect?attach=1&v=2"))).path =
          (urlparseB
            (bsOf "https://app.example/ton-connect?attach=1&v=2")).path ∧
          parseQsB (urlparseB (universal_url_to_direct_url
              (bsOf "https://app.example/ton-connect?attach=1&v=2"))).query =
            parseQsB (urlparseB
              (bsOf "https://app.example/ton-connect?attach=1&v=2")).query)) ∧
    (urlparseB (universal_url_to_direct_url
        (bsOf "https://app.example/ton-connect?attach=1&v=2"))).scheme =
      (urlparseB (bsOf "https://app.example/ton-connect?attach=1&v=2")).scheme ∧
    (urlparseB (universal_url_to_direct_url
        (bsOf "https://app.example/ton-connect?attach=1&v=2"))).netloc =
      (urlparseB (bsOf "https://app.example/ton-connect?attach=1&v=2")).netloc ∧
    (urlparseB (universal_url_to_direct_url
        (bsOf "https://app.example/ton-connect?attach=1&v=2"))).fragment =
      (urlparseB
        (bsOf "https://app.example/ton-connect?attach=1&v=2")).fragment) :=
  ⟨by decide, by decide,
    universal_url_direct_components _ (by decide) (by decide)⟩

/-- C9 (counterexample): on `/////a?attach=1` (no authority in the parse,
extra leading slashes) the transform is not idempotent: the first
application yields `///a/start`, the second collapses it further to
`/a/start`. -/
theorem u2d_not_idempotent :
    universal_url_to_direct_url (universal_url_to_direct_url
      (bsOf "/////a?attach=1")) ≠
    universal_url_to_direct_url (bsOf "/////a?attach=1") := by
  have h1 : universal_url_to_direct_url (bsOf "/////a?attach=1") =
      bsOf "///a/start" := by
    unfold universal_url_to_direct_url
    rw [show urlparseB (bsOf "/////a?attach=1") =
      (⟨[], [], bsOf "///a", [], bsOf "attach=1", []⟩ : UrlParts) from
      by decide]
    unfold directParts
    dsimp only
    rw [parseQs_attach1]
    decide
  rw [h1]
  have h2 : universal_url_to_direct_url (bsOf "///a/start") =
      bsOf "/a/start" := by
    unfold universal_url_to_direct_url
    rw [show urlparseB (bsOf "///a/start") =
      (⟨[], [], bsOf "/a/start", [], [], []⟩ : UrlParts) from by decide]
    unfold directParts
    dsimp only
    rw [show parseQsB ([] : BStr) = [] from rfl]
    decide
  rw [h2]
  decide

set_option maxHeartbeats 1000000 in
/-- C9 (amended): the transform is a pure function of its input byte
string, and on every URL whose bytes are below 256 and whose parse has a
non-empty authority it is idempotent: a second application returns the
first output unchanged. -/
theorem universal_url_to_direct_url_idem (u : BStr)
    (hb : ∀ b ∈ u, b < 256) (hnet : (urlparseB u).netloc ≠ []) :
    universal_url_to_direct_url (universal_url_to_direct_url u) =
      universal_url_to_direct_url u := by
  have hd : QDictInv (parseQsB (urlparseB u).query) :=
    parseQsB_inv _ (fun b hbq => hb b (urlparseB_query_subset u hbq))
  have hrep : urlparseB (universal_url_to_direct_url u) =
      directParts (urlparseB u) := u2d_reparse u hnet
  have houter : universal_url_to_direct_url (universal_url_to_direct_url u) =
      geturlB (directParts (directParts (urlparseB u))) := by
    show geturlB (directParts (urlparseB (universal_url_to_direct_url u))) = _
    rw [hrep]
  rw [houter, directParts_fix _ hd]
  rfl

/-- C9 (witness): the amended idempotence theorem applies to the concrete
attach-carrying URL `https://w.app/c?attach=1&v=2`. -/
theorem universal_url_to_direct_url_idem_witness :
    (∀ b ∈ bsOf "https://w.app/c?attach=1&v=2", b < 256) ∧
    (urlparseB (bsOf "https://w.app/c?attach=1&v=2")).netloc ≠ [] ∧
    universal_url_to_direct_url (universal_url_to_direct_url
        (bsOf "https://w.app/c?attach=1&v=2")) =
      universal_url_to_direct_url (bsOf "https://w.app/c?attach=1&v=2") :=
  ⟨by decide, by decide,
    universal_url_to_direct_url_idem _ (by decide) (by decide)⟩

end Tonutils
